import Mathlib

/-!
Verification of the wax package manager's install engine against its
specification.  The Rust source is shallowly embedded: byte buffers are
`List Nat` (each element a byte value), hash maps are association lists
whose order models one fixed iteration order, and effectful pipelines are
modelled as pure functions that also emit an event trace.
-/

namespace Wax

/-- Bytes of a string literal (ASCII). -/
def strBytes (s : String) : List Nat := s.toList.map Char.toNat

/-- The literal placeholder `@@HOMEBREW_PREFIX@@` (19 bytes), from
`bottle.rs` `relocate_bottle`. -/
def phP : List Nat := strBytes "@@HOMEBREW_PREFIX@@"

/-- The literal placeholder `@@HOMEBREW_CELLAR@@` (19 bytes). -/
def phC : List Nat := strBytes "@@HOMEBREW_CELLAR@@"

/-- `format!("{}/Cellar", prefix)` from `relocate_bottle`. -/
def cellarOf (pfx : List Nat) : List Nat := pfx ++ strBytes "/Cellar"

/-- The in-place splice of `relocate_file`: bytes `i .. i+phLen` are
replaced by `repl` followed by NUL padding up to the placeholder length.
Truncated subtraction makes `List.replicate (phLen - repl.length) 0`
empty exactly in the source's `else` branch (replacement longer than the
placeholder, no padding). -/
def spliceAt (repl : List Nat) (phLen : Nat) (c : List Nat) (i : Nat) : List Nat :=
  c.take i ++ repl ++ List.replicate (phLen - repl.length) 0 ++ c.drop (i + phLen)

/-- The scanning `while` loop of `relocate_file` for one placeholder.
`fuel` bounds the number of iterations (the Rust loop is unbounded; every
theorem below either works in the length-preserving regime, where
`c.length + 1` fuel is never exhausted, or evaluates on a concrete input
whose run fits the bound).  Returns the rewritten buffer and the
`modified` flag. -/
def scanLoop (ph repl : List Nat) : Nat → List Nat → Nat → Bool → List Nat × Bool
  | 0, c, _, m => (c, m)
  | fuel + 1, c, i, m =>
    if i + ph.length ≤ c.length then
      if (c.drop i).take ph.length = ph then
        scanLoop ph repl fuel (spliceAt repl ph.length c i) (i + ph.length) true
      else
        scanLoop ph repl fuel c (i + 1) m
    else (c, m)

/-- One full placeholder pass over a buffer. -/
def onePass (ph repl c : List Nat) (m : Bool) : List Nat × Bool :=
  scanLoop ph repl (c.length + 1) c 0 m

/-- ELF detection of `relocate_file`:
`content.len() >= 4 && &content[0..4] == b"\x7fELF"`. -/
def isElf (c : List Nat) : Bool := decide (4 ≤ c.length ∧ c.take 4 = [0x7f, 0x45, 0x4c, 0x46])

/-- A regular file as the relocator sees it: its bytes and its Unix
permission mode. -/
structure FileState where
  content : List Nat
  mode : Nat
deriving DecidableEq, Repr

/-- `relocate_file` from `bottle.rs` on a non-directory entry.  ELF files
are delegated to `relocate_elf` (external `patchelf`; the byte pass is
skipped and the mode is widened and restored there, so the file state is
unchanged in this model).  Otherwise the mode is widened with `0o200`,
both placeholder passes run (PREFIX first, then CELLAR, as in the
`placeholders` array), and only under `if modified` is the buffer written
back and the original mode restored. -/
def relocate_file (pfx : List Nat) (f : FileState) : FileState :=
  if isElf f.content then f
  else
    let widened := f.mode ||| 0o200
    let r1 := onePass phP pfx f.content false
    let r2 := onePass phC (cellarOf pfx) r1.1 r1.2
    if r2.2 then ⟨r2.1, f.mode⟩
    else ⟨f.content, widened⟩

/-- `ph` occurs in `c` at offset `j` (the slice comparison of the Rust
scan). -/
def occursAt (ph c : List Nat) (j : Nat) : Prop := (c.drop j).take ph.length = ph

instance (ph c : List Nat) (j : Nat) : Decidable (occursAt ph c j) := by
  unfold occursAt; infer_instance

/-- No occurrence of `ph` anywhere in `c`. -/
def noOccur (ph c : List Nat) : Prop := ∀ j, ¬ occursAt ph c j

/-! ### Pointwise facts about occurrences and the splice -/

lemma occursAt_iff {ph bs : List Nat} (hph : 0 < ph.length) {j : Nat} :
    occursAt ph bs j ↔
      j + ph.length ≤ bs.length ∧ ∀ p, p < ph.length → bs[j + p]? = ph[p]? := by
  unfold occursAt
  constructor
  · intro h
    have hlen : ((bs.drop j).take ph.length).length = ph.length := by rw [h]
    rw [List.length_take, List.length_drop] at hlen
    have hjc : j + ph.length ≤ bs.length := by omega
    refine ⟨hjc, fun p hp => ?_⟩
    have h2 := congrArg (fun l => l[p]?) h
    simp only [List.getElem?_take, if_pos hp, List.getElem?_drop] at h2
    exact h2
  · rintro ⟨hle, hpt⟩
    apply List.ext_getElem?
    intro p
    rw [List.getElem?_take]
    by_cases hp : p < ph.length
    · rw [if_pos hp, List.getElem?_drop]; exact hpt p hp
    · rw [if_neg hp]
      exact (List.getElem?_eq_none (by omega)).symm

lemma occursAt_length {ph bs : List Nat} (hph : 0 < ph.length) {j : Nat}
    (h : occursAt ph bs j) : j + ph.length ≤ bs.length :=
  ((occursAt_iff hph).1 h).1

lemma occursAt_mem {ph bs : List Nat} {j : Nat} (h : occursAt ph bs j) :
    ∀ x ∈ ph, x ∈ bs.drop j := by
  intro x hx
  rw [← h] at hx
  exact List.mem_of_mem_take hx

/-- The splice with the appends grouped to the left. -/
lemma spliceAt_eq (repl : List Nat) (L : Nat) (bs : List Nat) (i : Nat) :
    spliceAt repl L bs i =
      (bs.take i ++ (repl ++ List.replicate (L - repl.length) 0)) ++ bs.drop (i + L) := by
  simp [spliceAt, List.append_assoc]

lemma spliceAt_length {repl : List Nat} {L : Nat} {bs : List Nat} {i : Nat}
    (hr : repl.length ≤ L) (hiL : i + L ≤ bs.length) :
    (spliceAt repl L bs i).length = bs.length := by
  rw [spliceAt_eq]
  simp only [List.length_append, List.length_take, List.length_drop,
    List.length_replicate]
  omega

lemma spliceAt_getElem?_lt {repl : List Nat} {L : Nat} {bs : List Nat} {i m : Nat}
    (hiL : i + L ≤ bs.length) (hm : m < i) :
    (spliceAt repl L bs i)[m]? = bs[m]? := by
  rw [spliceAt_eq]
  have h1 : m < (bs.take i ++ (repl ++ List.replicate (L - repl.length) 0)).length := by
    simp only [List.length_append, List.length_take]; omega
  rw [List.getElem?_append_left h1]
  have h2 : m < (bs.take i).length := by rw [List.length_take]; omega
  rw [List.getElem?_append_left h2, List.getElem?_take, if_pos hm]

lemma spliceAt_getElem?_ge {repl : List Nat} {L : Nat} {bs : List Nat} {i m : Nat}
    (hr : repl.length ≤ L) (hiL : i + L ≤ bs.length) (hm : i + L ≤ m) :
    (spliceAt repl L bs i)[m]? = bs[m]? := by
  rw [spliceAt_eq]
  have hfront : (bs.take i ++ (repl ++ List.replicate (L - repl.length) 0)).length = i + L := by
    simp only [List.length_append, List.length_take, List.length_replicate]; omega
  rw [List.getElem?_append_right (by omega), hfront, List.getElem?_drop]
  congr 1
  omega

lemma spliceAt_getElem?_mid {repl : List Nat} {L : Nat} {bs : List Nat} {i m : Nat}
    (hr : repl.length ≤ L) (hiL : i + L ≤ bs.length) (h1 : i ≤ m) (h2 : m < i + L) :
    ∃ b, (spliceAt repl L bs i)[m]? = some b ∧ (b ∈ repl ∨ b = 0) := by
  rw [spliceAt_eq]
  have hfront : (bs.take i ++ (repl ++ List.replicate (L - repl.length) 0)).length = i + L := by
    simp only [List.length_append, List.length_take, List.length_replicate]; omega
  have htake : (bs.take i).length = i := by rw [List.length_take]; omega
  rw [List.getElem?_append_left (by omega : m < _), List.getElem?_append_right (by omega : (bs.take i).length ≤ m), htake]
  by_cases hmr : m - i < repl.length
  · rw [List.getElem?_append_left hmr]
    have hsome := List.getElem?_eq_getElem hmr
    exact ⟨repl[m - i], hsome, Or.inl (List.getElem_mem hmr)⟩
  · rw [List.getElem?_append_right (by omega), List.getElem?_replicate,
      if_pos (by omega)]
    exact ⟨0, rfl, Or.inr rfl⟩

lemma mem_of_getElem?_some {l : List Nat} {n a : Nat} (h : l[n]? = some a) : a ∈ l := by
  rcases List.getElem?_eq_some.1 h with ⟨hn, rfl⟩
  exact List.getElem_mem hn

/-! ### Behaviour of the scanning loop -/

lemma scanLoop_stop {ph repl bs : List Nat} {i : Nat}
    (h : ¬ i + ph.length ≤ bs.length) :
    ∀ fuel m, scanLoop ph repl fuel bs i m = (bs, m) := by
  intro fuel m
  cases fuel with
  | zero => rfl
  | succ f => simp only [scanLoop, if_neg h]

lemma scanLoop_succ_match {ph repl bs : List Nat} {i : Nat} {m : Bool} {fuel : Nat}
    (hg : i + ph.length ≤ bs.length) (hm : (bs.drop i).take ph.length = ph) :
    scanLoop ph repl (fuel + 1) bs i m =
      scanLoop ph repl fuel (spliceAt repl ph.length bs i) (i + ph.length) true := by
  simp only [scanLoop, if_pos hg, if_pos hm]

lemma scanLoop_true (ph repl : List Nat) :
    ∀ fuel bs i, (scanLoop ph repl fuel bs i true).2 = true := by
  intro fuel
  induction fuel with
  | zero => intro bs i; rfl
  | succ f ih =>
    intro bs i
    simp only [scanLoop]
    split_ifs with hg hm
    · exact ih _ _
    · exact ih _ _
    · rfl

/-- If the `modified` flag comes out `false`, no splice ever ran: the
buffer is returned untouched and the flag was `false` going in. -/
lemma scanLoop_snd_false {ph repl : List Nat} :
    ∀ fuel bs i m, (scanLoop ph repl fuel bs i m).2 = false →
      (scanLoop ph repl fuel bs i m).1 = bs ∧ m = false := by
  intro fuel
  induction fuel with
  | zero => intro bs i m h; exact ⟨rfl, h⟩
  | succ f ih =>
    intro bs i m h
    simp only [scanLoop] at h ⊢
    split_ifs at h ⊢ with hg hm
    · rw [scanLoop_true] at h; cases h
    · exact ⟨(ih _ _ _ h).1, (ih _ _ _ h).2⟩
    · exact ⟨rfl, h⟩

lemma scanLoop_length {ph repl : List Nat} (hr : repl.length ≤ ph.length) :
    ∀ fuel bs i m, ((scanLoop ph repl fuel bs i m).1).length = bs.length := by
  intro fuel
  induction fuel with
  | zero => intro bs i m; rfl
  | succ f ih =>
    intro bs i m
    simp only [scanLoop]
    split_ifs with hg hm
    · rw [ih]; exact spliceAt_length hr hg
    · exact ih _ _ _
    · rfl

/-- Occurrences of a 19-byte `@@…@@` probe in a spliced buffer avoid the
replaced region entirely (its bytes come from the replacement and NUL
padding, none of which is `64 = '@'`), hence were already present. -/
lemma occursAt_spliceAt {q repl bs : List Nat} {i j : Nat}
    (hr : repl.length ≤ 19) (hi : i + 19 ≤ bs.length) (h64 : 64 ∉ repl)
    (hq19 : q.length = 19) (hq0 : q[0]? = some 64) (hq18 : q[18]? = some 64)
    (hocc : occursAt q (spliceAt repl 19 bs i) j) :
    occursAt q bs j ∧ (j + 19 ≤ i ∨ i + 19 ≤ j) := by
  have hq : (0 : Nat) < q.length := by omega
  have hslen : (spliceAt repl 19 bs i).length = bs.length := spliceAt_length hr hi
  obtain ⟨hjs, hpt⟩ := (occursAt_iff hq).1 hocc
  rw [hslen, hq19] at hjs
  by_cases hc1 : i ≤ j ∧ j < i + 19
  · exfalso
    obtain ⟨b, hb, hmem⟩ := spliceAt_getElem?_mid hr hi hc1.1 hc1.2
    have h0 := hpt 0 (by omega)
    rw [Nat.add_zero, hb, hq0] at h0
    rcases hmem with hm | hm
    · exact h64 (by rwa [(Option.some_inj.1 h0)] at hm)
    · rw [(Option.some_inj.1 h0)] at hm; cases hm
  by_cases hc2 : j < i ∧ i < j + 19
  · exfalso
    obtain ⟨b, hb, hmem⟩ := spliceAt_getElem?_mid hr hi
      (by omega : i ≤ j + 18) (by omega : j + 18 < i + 19)
    have h18 := hpt 18 (by omega)
    rw [hb, hq18] at h18
    rcases hmem with hm | hm
    · exact h64 (by rwa [(Option.some_inj.1 h18)] at hm)
    · rw [(Option.some_inj.1 h18)] at hm; cases hm
  have hdisj : j + 19 ≤ i ∨ i + 19 ≤ j := by omega
  refine ⟨(occursAt_iff hq).2 ⟨by omega, fun p hp => ?_⟩, hdisj⟩
  rw [← hpt p hp]
  rcases hdisj with hd | hd
  · exact (spliceAt_getElem?_lt hi (by omega)).symm
  · exact (spliceAt_getElem?_ge hr hi (by omega)).symm

/-- A pass for one placeholder creates no occurrence of a probe
placeholder (same 19-byte `@@…@@` shape) that was not already there. -/
lemma scanLoop_preserves_noOccur {ph repl q : List Nat}
    (hph19 : ph.length = 19) (hr : repl.length ≤ 19) (h64 : 64 ∉ repl)
    (hq19 : q.length = 19) (hq0 : q[0]? = some 64) (hq18 : q[18]? = some 64) :
    ∀ fuel bs i m, noOccur q bs → noOccur q (scanLoop ph repl fuel bs i m).1 := by
  intro fuel
  induction fuel with
  | zero => intro bs i m h; exact h
  | succ f ih =>
    intro bs i m hno
    simp only [scanLoop]
    split_ifs with hg hm
    · rw [hph19] at hg ⊢
      refine ih _ _ _ (fun j hocc => ?_)
      exact hno j (occursAt_spliceAt hr hg h64 hq19 hq0 hq18 hocc).1
    · exact ih _ _ _ hno
    · exact hno

/-- After a full scan for `ph` (with enough fuel for the
length-preserving regime), no occurrence of `ph` remains. -/
lemma scanLoop_kills {ph repl : List Nat}
    (hph19 : ph.length = 19) (hp0 : ph[0]? = some 64) (hp18 : ph[18]? = some 64)
    (hr : repl.length ≤ 19) (h64 : 64 ∉ repl) :
    ∀ fuel bs i m, bs.length + 1 ≤ fuel + i →
      (∀ j, j < i → ¬ occursAt ph bs j) →
      noOccur ph (scanLoop ph repl fuel bs i m).1 := by
  have hq : (0 : Nat) < ph.length := by omega
  intro fuel
  induction fuel with
  | zero =>
    intro bs i m hfuel hinv
    show noOccur ph bs
    intro j hocc
    have hjl := occursAt_length hq hocc
    rw [hph19] at hjl
    exact hinv j (by omega) hocc
  | succ f ih =>
    intro bs i m hfuel hinv
    simp only [scanLoop]
    split_ifs with hg hm
    · rw [hph19] at hg ⊢
      have hlen2 : (spliceAt repl 19 bs i).length = bs.length := spliceAt_length hr hg
      refine ih _ _ _ (by omega) (fun j hj hocc => ?_)
      obtain ⟨hob, hdisj⟩ := occursAt_spliceAt hr hg h64 hph19 hp0 hp18 hocc
      rcases hdisj with hd | hd
      · exact hinv j (by omega) hob
      · omega
    · refine ih _ _ _ (by omega) (fun j hj hocc => ?_)
      rcases Nat.lt_or_ge j i with hji | hji
      · exact hinv j hji hocc
      · have : j = i := by omega
        subst this
        exact hm hocc
    · show noOccur ph bs
      intro j hocc
      have hjl := occursAt_length hq hocc
      rw [hph19] at hjl hg
      exact hinv j (by omega) hocc

lemma phP_len : phP.length = 19 := by decide
lemma phC_len : phC.length = 19 := by decide
lemma phP_0 : phP[0]? = some 64 := by decide
lemma phP_18 : phP[18]? = some 64 := by decide
lemma phC_0 : phC[0]? = some 64 := by decide
lemma phC_18 : phC[18]? = some 64 := by decide

lemma cellarOf_length (pfx : List Nat) : (cellarOf pfx).length = pfx.length + 7 := by
  have h7 : (strBytes "/Cellar").length = 7 := by decide
  rw [cellarOf, List.length_append, h7]

lemma cellarOf_no64 {pfx : List Nat} (h : 64 ∉ pfx) : 64 ∉ cellarOf pfx := by
  rw [cellarOf]
  intro hmem
  rcases List.mem_append.1 hmem with h1 | h1
  · exact h h1
  · revert h1; decide

/-- **C3** (amended).  The byte-rewrite pass of the relocator preserves a
file's length whenever both replacements fit inside the 19-byte
placeholders (prefix of at most 12 bytes, so that `prefix` and
`prefix ++ "/Cellar"` are both at most 19 bytes); and if additionally the
prefix contains no `'@'` byte, then after the pass no occurrence of
`@@HOMEBREW_PREFIX@@` or `@@HOMEBREW_CELLAR@@` remains in a non-ELF
file.  (As stated in the spec — for *every* prefix string — the claim is
false; see the counterexample below.) -/
theorem C3_relocator_length_and_cleanup (pfx bs : List Nat) (mode : Nat)
    (hlen : pfx.length ≤ 12) :
    ((relocate_file pfx ⟨bs, mode⟩).content).length = bs.length ∧
    (64 ∉ pfx → isElf bs = false →
      noOccur phP (relocate_file pfx ⟨bs, mode⟩).content ∧
      noOccur phC (relocate_file pfx ⟨bs, mode⟩).content) := by
  by_cases he : isElf bs
  · constructor
    · simp [relocate_file, he]
    · intro _ helf; rw [he] at helf; cases helf
  · have hrP : pfx.length ≤ phP.length := by rw [phP_len]; omega
    have hrC : (cellarOf pfx).length ≤ phC.length := by
      rw [phC_len, cellarOf_length]; omega
    have hcontent : (relocate_file pfx ⟨bs, mode⟩).content =
        if (onePass phC (cellarOf pfx) (onePass phP pfx bs false).1
              (onePass phP pfx bs false).2).2
        then (onePass phC (cellarOf pfx) (onePass phP pfx bs false).1
              (onePass phP pfx bs false).2).1
        else bs := by
      simp only [relocate_file, he, Bool.false_eq_true, if_false, apply_ite]
      split_ifs <;> rfl
    have hl1 : ((onePass phP pfx bs false).1).length = bs.length :=
      scanLoop_length hrP _ _ _ _
    have hl2 : ((onePass phC (cellarOf pfx) (onePass phP pfx bs false).1
        (onePass phP pfx bs false).2).1).length =
        ((onePass phP pfx bs false).1).length :=
      scanLoop_length hrC _ _ _ _
    constructor
    · rw [hcontent]
      split_ifs with hm
      · rw [hl2, hl1]
      · rfl
    · intro h64 helf
      have hrP' : pfx.length ≤ 19 := by omega
      have hrC' : (cellarOf pfx).length ≤ 19 := by rw [cellarOf_length]; omega
      have hc64 : 64 ∉ cellarOf pfx := cellarOf_no64 h64
      have hk1 : noOccur phP (onePass phP pfx bs false).1 :=
        scanLoop_kills phP_len phP_0 phP_18 hrP' h64 _ _ _ _
          (by omega) (fun j hj => absurd hj (by omega))
      have hk2 : noOccur phC (onePass phC (cellarOf pfx) (onePass phP pfx bs false).1
          (onePass phP pfx bs false).2).1 :=
        scanLoop_kills phC_len phC_0 phC_18 hrC' hc64 _ _ _ _
          (by omega) (fun j hj => absurd hj (by omega))
      have hp2 : noOccur phP (onePass phC (cellarOf pfx) (onePass phP pfx bs false).1
          (onePass phP pfx bs false).2).1 :=
        scanLoop_preserves_noOccur phC_len hrC' hc64 phP_len phP_0 phP_18 _ _ _ _ hk1
      rw [hcontent]
      split_ifs with hm
      · exact ⟨hp2, hk2⟩
      · have hnm : (onePass phC (cellarOf pfx) (onePass phP pfx bs false).1
            (onePass phP pfx bs false).2).1 = bs := by
          have h2 := scanLoop_snd_false _ _ _ _ (by simpa using hm)
          have h1 := scanLoop_snd_false _ _ _ _ h2.2
          exact h2.1.trans h1.1
        rw [← hnm]
        exact ⟨hp2, hk2⟩

/-- **C3** (counterexample to the claim as stated).  With the prefix
string `@@HOMEBREW_PREFIX@@X` (20 bytes) and a file consisting of
exactly the placeholder, the rewrite lengthens the file from 19 to 20
bytes and leaves an occurrence of `@@HOMEBREW_PREFIX@@` in place.
(Realistic prefixes also break the length part: `/opt/homebrew` makes
the Cellar replacement 20 bytes, `/home/linuxbrew/.linuxbrew` is 26.) -/
theorem C3_counterexample :
    (relocate_file (phP ++ [88]) ⟨phP, 0o644⟩).content.length ≠ phP.length ∧
    occursAt phP (relocate_file (phP ++ [88]) ⟨phP, 0o644⟩).content 0 := by decide

theorem C3_witness :
    ((relocate_file (strBytes "/opt/wax")
        ⟨strBytes "x=@@HOMEBREW_PREFIX@@;", 0o644⟩).content).length =
      (strBytes "x=@@HOMEBREW_PREFIX@@;").length ∧
    noOccur phP (relocate_file (strBytes "/opt/wax")
        ⟨strBytes "x=@@HOMEBREW_PREFIX@@;", 0o644⟩).content :=
  ⟨(C3_relocator_length_and_cleanup _ _ _ (by decide)).1,
   ((C3_relocator_length_and_cleanup _ _ _ (by decide)).2 (by decide) (by decide)).1⟩

/-- **C9**.  The per-file rewrite widens the mode with `0o200` before
scanning, but restores the original permissions only inside the
`if modified` branch: a non-ELF file containing no placeholder exits the
rewrite with the widened mode `0o644` instead of its original `0o444`. -/
theorem C9_mode_not_restored :
    relocate_file (strBytes "/opt/wax") ⟨strBytes "hello", 0o444⟩ =
      ⟨strBytes "hello", 0o644⟩ := by decide

/-! ### Driving the scan over concrete content (for the S3 scenario) -/

/-- The scan leaves a buffer alone from `i` on when no `'@'` byte is left
there (a match would need one). -/
lemma scanLoop_skip {ph repl : List Nat} (hp0 : ph[0]? = some 64) :
    ∀ fuel bs i m, 64 ∉ bs.drop i → scanLoop ph repl fuel bs i m = (bs, m) := by
  intro fuel
  induction fuel with
  | zero => intro bs i m _; rfl
  | succ f ih =>
    intro bs i m h64
    by_cases hg : i + ph.length ≤ bs.length
    · have hnm : ¬ (bs.drop i).take ph.length = ph := by
        intro hmm
        exact h64 (occursAt_mem hmm 64 (mem_of_getElem?_some hp0))
      simp only [scanLoop, if_pos hg, if_neg hnm]
      refine ih bs (i + 1) m (fun hx => h64 ?_)
      have hdd : bs.drop (i + 1) = (bs.drop i).drop 1 := by rw [List.drop_drop]
      rw [hdd] at hx
      exact List.mem_of_mem_drop hx
    · simp only [scanLoop, if_neg hg]

/-- The scan walks byte-by-byte across a `'@'`-free region. -/
lemma scanLoop_advance {ph repl : List Nat} (hph : 0 < ph.length)
    (hp0 : ph[0]? = some 64) :
    ∀ k fuel bs i m, 64 ∉ (bs.drop i).take k →
      scanLoop ph repl (k + fuel) bs i m = scanLoop ph repl fuel bs (i + k) m := by
  intro k
  induction k with
  | zero => intro fuel bs i m _; rw [Nat.zero_add, Nat.add_zero]
  | succ k ih =>
    intro fuel bs i m h64
    by_cases hg : i + ph.length ≤ bs.length
    · have hi : i < bs.length := by omega
      have hcons : bs.drop i = bs[i] :: bs.drop (i + 1) := List.drop_eq_getElem_cons hi
      have hnm : ¬ (bs.drop i).take ph.length = ph := by
        intro hmm
        have h0 : (bs.drop i)[0]? = some 64 := by
          have h1 := congrArg (fun l => l[0]?) hmm
          simp only [List.getElem?_take, if_pos hph] at h1
          rw [h1, hp0]
        apply h64
        apply @mem_of_getElem?_some _ 0 _
        rw [List.getElem?_take, if_pos (by omega : (0:Nat) < k + 1)]
        exact h0
      have hstep : scanLoop ph repl (k + 1 + fuel) bs i m =
          scanLoop ph repl (k + fuel) bs (i + 1) m := by
        have hre : k + 1 + fuel = (k + fuel) + 1 := by omega
        rw [hre]
        simp only [scanLoop, if_pos hg, if_neg hnm]
      rw [hstep, ih fuel bs (i + 1) m ?h64]
      · congr 1
        omega
      · intro hx
        apply h64
        rw [hcons, List.take_succ_cons]
        exact List.mem_cons_of_mem _ hx
    · rw [scanLoop_stop hg, scanLoop_stop (by omega)]

/-- S3 input pieces: a 1 KiB file whose bytes are
`prefix=@@HOMEBREW_PREFIX@@/bin\n` followed by NULs. -/
def c8pfx : List Nat := strBytes "/opt/wax"

def c8head : List Nat := strBytes "prefix="

def c8tail : List Nat := strBytes "/bin\n" ++ List.replicate 993 0

def c8file : List Nat := c8head ++ phP ++ c8tail

def c8result : List Nat := c8head ++ c8pfx ++ List.replicate 11 0 ++ c8tail

set_option maxRecDepth 8192 in
lemma c8tail_no64 : 64 ∉ c8tail := by decide

set_option maxRecDepth 8192 in
lemma c8file_len : c8file.length = 1024 := by decide

set_option maxRecDepth 8192 in
lemma c8result_drop26 : c8result.drop 26 = c8tail := by
  have h2 : c8result = (c8head ++ c8pfx ++ List.replicate 11 0) ++ c8tail := rfl
  rw [h2, List.drop_left' (by decide : (c8head ++ c8pfx ++ List.replicate 11 0).length = 26)]

set_option maxRecDepth 8192 in
lemma c8result_no64 : 64 ∉ c8result := by decide

lemma c8_pass1 : onePass phP c8pfx c8file false = (c8result, true) := by
  have hfuel : c8file.length + 1 = 7 + 1018 := by rw [c8file_len]
  show scanLoop phP c8pfx (c8file.length + 1) c8file 0 false = (c8result, true)
  rw [hfuel]
  rw [scanLoop_advance (by rw [phP_len]; omega) phP_0 7 1018 c8file 0 false
    (by rw [List.drop_zero]; decide)]
  have hg : 0 + 7 + phP.length ≤ c8file.length := by rw [phP_len, c8file_len]; omega
  have hmatch : (c8file.drop (0 + 7)).take phP.length = phP := by
    have hd : c8file.drop 7 = phP ++ c8tail := by
      have ha : c8file = c8head ++ (phP ++ c8tail) := by
        rw [c8file, List.append_assoc]
      rw [ha, List.drop_left' (by decide : c8head.length = 7)]
    show (c8file.drop 7).take phP.length = phP
    rw [hd, List.take_left' rfl]
  have hsplice : spliceAt c8pfx phP.length c8file (0 + 7) = c8result := by
    show spliceAt c8pfx phP.length c8file 7 = c8result
    rw [spliceAt, phP_len]
    have ht : c8file.take 7 = c8head := by
      have ha : c8file = c8head ++ (phP ++ c8tail) := by
        rw [c8file, List.append_assoc]
      rw [ha, List.take_left' (by decide : c8head.length = 7)]
    have hd : c8file.drop (7 + 19) = c8tail := by
      have ha : c8file = (c8head ++ phP) ++ c8tail := rfl
      rw [ha, List.drop_left' (by decide : (c8head ++ phP).length = 26)]
    have hrep : List.replicate (19 - c8pfx.length) (0:Nat) = List.replicate 11 0 := by decide
    rw [ht, hd, hrep]
    rfl
  have hstep : scanLoop phP c8pfx 1018 c8file (0 + 7) false =
      scanLoop phP c8pfx 1017 c8result (0 + 7 + phP.length) true := by
    show scanLoop phP c8pfx (1017 + 1) c8file (0 + 7) false = _
    rw [scanLoop_succ_match hg hmatch, hsplice]
  rw [hstep]
  have hi : 0 + 7 + phP.length = 26 := by rw [phP_len]
  rw [hi]
  exact scanLoop_skip phP_0 1017 c8result 26 true
    (by rw [c8result_drop26]; exact c8tail_no64)

set_option maxRecDepth 8192 in
lemma c8_relocate :
    relocate_file c8pfx ⟨c8file, 0o644⟩ = ⟨c8result, 0o644⟩ := by
  have helf : isElf c8file = false := by
    rw [isElf, c8file_len]
    have ht4 : c8file.take 4 = strBytes "pref" := by decide
    rw [ht4]
    decide
  have hp2 : onePass phC (cellarOf c8pfx) c8result true = (c8result, true) := by
    show scanLoop phC (cellarOf c8pfx) (c8result.length + 1) c8result 0 true = _
    exact scanLoop_skip phC_0 _ c8result 0 true
      (by rw [List.drop_zero]; exact c8result_no64)
  have h1 : onePass phP c8pfx c8file false = (c8result, true) := c8_pass1
  simp only [relocate_file, helf, Bool.false_eq_true, if_false, h1, hp2]
  rfl

/-- **C8** (counterexample to the claim as stated).  Relocating the 1 KiB
file does *not* produce content beginning `prefix=/opt/wax/bin` followed
by 6 NUL bytes: the NUL padding sits between the replacement and the
following `/bin`, inside the replaced 19-byte window. -/
theorem C8_counterexample :
    (relocate_file c8pfx ⟨c8file, 0o644⟩).content.take 25 ≠
      strBytes "prefix=/opt/wax/bin" ++ List.replicate 6 0 := by
  rw [c8_relocate]
  decide

set_option maxRecDepth 8192 in
/-- **C8** (amended).  Relocating the 1 KiB file
`prefix=@@HOMEBREW_PREFIX@@/bin\n` + NUL padding under `/opt/wax` yields
a 1 KiB file whose content begins `prefix=/opt/wax` followed by 11 NUL
bytes (placeholder length 19 minus replacement length 8) and then
`/bin\n`. -/
theorem C8_relocation_scenario :
    (relocate_file c8pfx ⟨c8file, 0o644⟩).content =
      strBytes "prefix=/opt/wax" ++ List.replicate 11 0 ++
        strBytes "/bin\n" ++ List.replicate 993 0 ∧
    (relocate_file c8pfx ⟨c8file, 0o644⟩).content.length = 1024 ∧
    c8file.length = 1024 := by
  rw [c8_relocate]
  refine ⟨by decide, by decide, c8file_len⟩

/-! ### Data model (`api.rs`) — the fields the install engine reads -/

structure BottleFile where
  url : String
  sha256 : String
deriving DecidableEq, Repr

/-- `BottleStable.files : HashMap<String, BottleFile>`, as an association
list in one fixed iteration order. -/
structure BottleStable where
  files : List (String × BottleFile)
deriving DecidableEq, Repr

structure BottleInfo where
  stable : Option BottleStable
deriving DecidableEq, Repr

/-- `api.rs` `Formula` (descriptive fields `desc`/`homepage`/`installed`
are never read by the engine and are omitted). -/
structure Formula where
  name : String
  full_name : String
  versions_stable : String
  dependencies : Option (List String)
  build_dependencies : Option (List String)
  bottle : Option BottleInfo
deriving DecidableEq, Repr

/-- The error variants of `error.rs` reachable from the embedded code. -/
inductive WaxError where
  | FormulaNotFound (name : String)
  | DependencyCycle (msg : String)
  | BottleNotAvailable (msg : String)
  | LockfileError (msg : String)
deriving DecidableEq, Repr

/-- Association-list lookup (`HashMap::get`). -/
def lookup? {α : Type} (k : String) : List (String × α) → Option α
  | [] => none
  | (k', v) :: rest => if k' = k then some v else lookup? k rest

/-- `HashMap::insert`: replace in place if the key exists, else append. -/
def upsert {α : Type} (k : String) (v : α) : List (String × α) → List (String × α)
  | [] => [(k, v)]
  | (k', v') :: rest => if k' = k then (k, v) :: rest else (k', v') :: upsert k v rest

/-- `in_degree.entry(k).or_insert(0)`. -/
def entryOrInsert0 (k : String) : List (String × Nat) → List (String × Nat)
  | [] => [(k, 0)]
  | (k', v) :: rest => if k' = k then (k', v) :: rest else (k', v) :: entryOrInsert0 k rest

/-- `adj_list.entry(k).or_default().push(nbr)`. -/
def adjPush (k nbr : String) : List (String × List String) → List (String × List String)
  | [] => [(k, [nbr])]
  | (k', l) :: rest =>
    if k' = k then (k', l ++ [nbr]) :: rest else (k', l) :: adjPush k nbr rest

/-! ### Dependency resolver (`deps.rs`) -/

/-- `formulae.iter().find(|f| f.name == name)`. -/
def findFormula (formulae : List Formula) (name : String) : Option Formula :=
  formulae.find? (fun f => f.name == name)

/-- The breadth-first walk of `resolve_dependencies` that collects the
dependency graph.  `fuel` bounds the iteration count; it is spent once
per pop, and the chosen initial fuel (`bfsFuel`) exceeds the number of
queue pushes the walk can ever perform, so the fuel-exhausted branch is
unreachable (it returns an error, so no theorem about successful runs is
affected by it). -/
def bfsBuild (formulae : List Formula) (installed : List String) :
    Nat → List String → List String → List (String × List String) →
    Except WaxError (List (String × List String))
  | 0, _, _, _ => Except.error (WaxError.DependencyCycle "bfs fuel exhausted")
  | _ + 1, [], _, graph => Except.ok graph
  | fuel + 1, name :: queue, visited, graph =>
    if name ∈ visited ∨ name ∈ installed then
      bfsBuild formulae installed fuel queue visited graph
    else
      match findFormula formulae name with
      | none => Except.error (WaxError.FormulaNotFound name)
      | some f =>
        let deps := f.dependencies.getD []
        bfsBuild formulae installed fuel
          (queue ++ deps.filter (fun d => decide (d ∉ installed)))
          (name :: visited)
          (upsert name deps graph)

def bfsFuel (formulae : List Formula) : Nat :=
  1 + (formulae.map (fun f => 1 + (f.dependencies.getD []).length)).sum

/-- First loop of `topological_sort`: seed `in_degree` with every node
and every dependency, and record reverse edges in `adj_list`. -/
def initPass (graph : List (String × List String)) :
    List (String × Nat) × List (String × List String) :=
  graph.foldl
    (fun st node =>
      node.2.foldl
        (fun st2 dep => (entryOrInsert0 dep st2.1, adjPush dep node.1 st2.2))
        (entryOrInsert0 node.1 st.1, st.2))
    ([], [])

/-- Second loop of `topological_sort`:
`*in_degree.entry(node).or_insert(0) = deps.len()`. -/
def setDegrees (graph : List (String × List String)) (deg : List (String × Nat)) :
    List (String × Nat) :=
  graph.foldl (fun d node => upsert node.1 node.2.length d) deg

/-- The inner `for neighbor in neighbors` loop of the Kahn pass.
`cnt - 1` is Nat subtraction and the push test is `cnt = 1`; this
reproduces release-mode Rust observably (there `0usize - 1` wraps to a
huge value that is never `0`, so an underflowed entry is never pushed —
and it never happens on the reachable states anyway). -/
def processNeighbors :
    List (String × Nat) → List String → List String → List (String × Nat) × List String
  | deg, queue, [] => (deg, queue)
  | deg, queue, n :: rest =>
    match lookup? n deg with
    | none => processNeighbors deg queue rest
    | some cnt =>
      processNeighbors (upsert n (cnt - 1) deg)
        (if cnt = 1 then queue ++ [n] else queue) rest

/-- The Kahn `while let Some(node) = queue.pop_front()` loop.  One fuel
per pop; `topological_sort` passes more fuel than pushes can occur, and
a fuel-exhausted exit cannot satisfy the final length check anyway. -/
def kahnLoop (adj : List (String × List String)) :
    Nat → List (String × Nat) → List String → List String →
    List (String × Nat) × List String
  | 0, deg, _, result => (deg, result)
  | _ + 1, deg, [], result => (deg, result)
  | fuel + 1, deg, node :: queue, result =>
    match lookup? node adj with
    | none => kahnLoop adj fuel deg queue (result ++ [node])
    | some neighbors =>
      let st := processNeighbors deg queue neighbors
      kahnLoop adj fuel st.1 st.2 (result ++ [node])

/-- `DependencyGraph::topological_sort` from `deps.rs`. -/
def topological_sort (graph : List (String × List String)) :
    Except WaxError (List String) :=
  let st0 := initPass graph
  let deg := setDegrees graph st0.1
  let queue0 := (deg.filter (fun e => e.2 == 0)).map Prod.fst
  let res := kahnLoop st0.2
    (deg.length + (st0.2.map (fun a => a.2.length)).sum + 1) deg queue0 []
  if res.2.length ≠ deg.length then
    Except.error (WaxError.DependencyCycle "Circular dependency detected")
  else Except.ok res.2

/-- `resolve_dependencies` from `deps.rs`: BFS walk, topological sort,
then filter out installed names. -/
def resolve_dependencies (formula : Formula) (formulae : List Formula)
    (installed : List String) : Except WaxError (List String) :=
  match bfsBuild formulae installed (bfsFuel formulae) [formula.name] [] [] with
  | Except.error e => Except.error e
  | Except.ok graph =>
    match topological_sort graph with
    | Except.error e => Except.error e
    | Except.ok sorted =>
      Except.ok (sorted.filter (fun n => decide (n ∉ installed)))

/-- The runtime dependencies the catalog records for a name (empty when
the name is absent), the edge relation of the claim. -/
def runtimeDeps (formulae : List Formula) (x : String) : List String :=
  ((findFormula formulae x).map (fun f => f.dependencies.getD [])).getD []

/-! ### Association-list toolkit -/

def keys {α : Type} (m : List (String × α)) : List String := m.map Prod.fst

lemma keys_nil {α : Type} : keys ([] : List (String × α)) = [] := rfl

lemma keys_cons {α : Type} (p : String × α) (m : List (String × α)) :
    keys (p :: m) = p.1 :: keys m := rfl

lemma lookup?_eq_none_iff {α : Type} {k : String} {m : List (String × α)} :
    lookup? k m = none ↔ k ∉ keys m := by
  induction m with
  | nil => simp [lookup?, keys]
  | cons p rest ih =>
    obtain ⟨k', v⟩ := p
    by_cases h : k' = k
    · subst h
      simp [lookup?, keys]
    · simp [lookup?, h, keys, ih]
      intro hk
      exact fun hc => h hc.symm

lemma lookup?_mem_keys {α : Type} {k : String} {m : List (String × α)} {v : α}
    (h : lookup? k m = some v) : k ∈ keys m := by
  by_contra hk
  rw [← lookup?_eq_none_iff] at hk
  rw [h] at hk
  cases hk

lemma mem_keys_exists {α : Type} {k : String} {m : List (String × α)}
    (h : k ∈ keys m) : ∃ v, lookup? k m = some v := by
  cases hl : lookup? k m with
  | none => exact absurd (lookup?_eq_none_iff.1 hl) (by simp [h])
  | some v => exact ⟨v, rfl⟩

lemma lookup?_of_mem_of_nodup {α : Type} {k : String} {v : α} {m : List (String × α)}
    (hnd : (keys m).Nodup) (hm : (k, v) ∈ m) : lookup? k m = some v := by
  induction m with
  | nil => cases hm
  | cons p rest ih =>
    obtain ⟨k', v'⟩ := p
    rw [keys_cons] at hnd
    rcases List.mem_cons.1 hm with h | h
    · cases h
      simp [lookup?]
    · have hk : k' ≠ k := by
        intro hc
        subst hc
        have hker : k' ∈ keys rest := List.mem_map_of_mem Prod.fst h
        exact (List.nodup_cons.1 hnd).1 hker
      simp only [lookup?, if_neg hk]
      exact ih (List.nodup_cons.1 hnd).2 h

lemma mem_of_lookup? {α : Type} {k : String} {v : α} {m : List (String × α)}
    (h : lookup? k m = some v) : (k, v) ∈ m := by
  induction m with
  | nil => cases h
  | cons p rest ih =>
    obtain ⟨k', v'⟩ := p
    by_cases hk : k' = k
    · subst hk
      simp only [lookup?, if_pos rfl] at h
      cases h
      exact List.mem_cons_self _ _
    · simp only [lookup?, if_neg hk] at h
      exact List.mem_cons_of_mem _ (ih h)

lemma upsert_lookup_self {α : Type} (k : String) (v : α) (m : List (String × α)) :
    lookup? k (upsert k v m) = some v := by
  induction m with
  | nil => simp [upsert, lookup?]
  | cons p rest ih =>
    obtain ⟨k', v'⟩ := p
    by_cases h : k' = k
    · subst h
      simp [upsert, lookup?]
    · simp [upsert, h, lookup?, ih]

lemma upsert_lookup_ne {α : Type} {k k' : String} (v : α) (m : List (String × α))
    (h : k' ≠ k) : lookup? k' (upsert k v m) = lookup? k' m := by
  have hkk : ¬ k = k' := fun hc => h hc.symm
  induction m with
  | nil => simp only [upsert, lookup?, if_neg hkk]
  | cons p rest ih =>
    obtain ⟨k0, v0⟩ := p
    by_cases h0 : k0 = k
    · subst h0
      simp only [upsert, if_pos rfl, lookup?, if_neg hkk]
    · by_cases h1 : k0 = k'
      · subst h1
        simp only [upsert, if_neg h0]
        show (if k0 = k0 then some v0 else lookup? k0 (upsert k v rest)) =
          (if k0 = k0 then some v0 else lookup? k0 rest)
        rw [if_pos rfl, if_pos rfl]
      · simp only [upsert, if_neg h0, lookup?, if_neg h1]
        exact ih

lemma upsert_keys_of_mem {α : Type} {k : String} (v : α) {m : List (String × α)}
    (h : k ∈ keys m) : keys (upsert k v m) = keys m := by
  induction m with
  | nil => cases h
  | cons p rest ih =>
    obtain ⟨k', v'⟩ := p
    by_cases h0 : k' = k
    · subst h0
      simp [upsert, keys]
    · rw [keys_cons] at h
      rcases List.mem_cons.1 h with h1 | h1
      · exact absurd h1.symm h0
      · simp only [upsert, if_neg h0, keys_cons]
        rw [ih h1]

lemma upsert_keys_of_not_mem {α : Type} {k : String} (v : α) {m : List (String × α)}
    (h : k ∉ keys m) : keys (upsert k v m) = keys m ++ [k] := by
  induction m with
  | nil => rfl
  | cons p rest ih =>
    obtain ⟨k', v'⟩ := p
    rw [keys_cons] at h
    have h0 : k' ≠ k := fun hc => h (by rw [hc]; exact List.mem_cons_self _ _)
    simp only [upsert, if_neg h0, keys_cons, List.cons_append]
    rw [ih (fun hc => h (List.mem_cons_of_mem _ hc))]

lemma entryOrInsert0_of_mem {k : String} {m : List (String × Nat)}
    (h : k ∈ keys m) : entryOrInsert0 k m = m := by
  induction m with
  | nil => cases h
  | cons p rest ih =>
    obtain ⟨k', v'⟩ := p
    by_cases h0 : k' = k
    · simp [entryOrInsert0, h0]
    · rw [keys_cons] at h
      rcases List.mem_cons.1 h with h1 | h1
      · exact absurd h1.symm h0
      · simp [entryOrInsert0, h0, ih h1]

lemma entryOrInsert0_of_not_mem {k : String} {m : List (String × Nat)}
    (h : k ∉ keys m) : entryOrInsert0 k m = m ++ [(k, 0)] := by
  induction m with
  | nil => rfl
  | cons p rest ih =>
    obtain ⟨k', v'⟩ := p
    rw [keys_cons] at h
    have h0 : k' ≠ k := fun hc => h (by rw [hc]; exact List.mem_cons_self _ _)
    simp only [entryOrInsert0, if_neg h0, List.cons_append]
    rw [ih (fun hc => h (List.mem_cons_of_mem _ hc))]

lemma adjPush_lookup_self (k nbr : String) (m : List (String × List String)) :
    lookup? k (adjPush k nbr m) = some ((lookup? k m).getD [] ++ [nbr]) := by
  induction m with
  | nil => simp [adjPush, lookup?]
  | cons p rest ih =>
    obtain ⟨k', l⟩ := p
    by_cases h : k' = k
    · subst h
      simp [adjPush, lookup?]
    · simp [adjPush, h, lookup?, ih]

lemma adjPush_lookup_ne {k k' : String} (nbr : String) (m : List (String × List String))
    (h : k' ≠ k) : lookup? k' (adjPush k nbr m) = lookup? k' m := by
  have hkk : ¬ k = k' := fun hc => h hc.symm
  induction m with
  | nil => simp only [adjPush, lookup?, if_neg hkk]
  | cons p rest ih =>
    obtain ⟨k0, l⟩ := p
    by_cases h0 : k0 = k
    · subst h0
      simp only [adjPush, if_pos rfl, lookup?, if_neg hkk]
    · by_cases h1 : k0 = k'
      · subst h1
        simp only [adjPush, if_neg h0]
        show (if k0 = k0 then some l else lookup? k0 (adjPush k nbr rest)) =
          (if k0 = k0 then some l else lookup? k0 rest)
        rw [if_pos rfl, if_pos rfl]
      · simp only [adjPush, if_neg h0, lookup?, if_neg h1]
        exact ih

lemma lookup?_append {α : Type} (k : String) (m m2 : List (String × α)) :
    lookup? k (m ++ m2) =
      match lookup? k m with
      | some v => some v
      | none => lookup? k m2 := by
  induction m with
  | nil => rfl
  | cons p rest ih =>
    obtain ⟨k', v⟩ := p
    by_cases h : k' = k
    · simp [lookup?, h]
    · simp [lookup?, h, ih]

/-! ### Structure of `initPass`, `setDegrees` and the initial queue -/

/-- Occurrence count (multiplicity) of a name in a list. -/
def cnt (a : String) : List String → Nat
  | [] => 0
  | b :: l => (if b = a then 1 else 0) + cnt a l

lemma cnt_append (a : String) (l l' : List String) :
    cnt a (l ++ l') = cnt a l + cnt a l' := by
  induction l with
  | nil => simp [cnt]
  | cons b l ih => simp [cnt, ih]; omega

lemma cnt_eq_zero_of_not_mem {a : String} {l : List String} (h : a ∉ l) :
    cnt a l = 0 := by
  induction l with
  | nil => rfl
  | cons b l ih =>
    rw [cnt, if_neg (fun hc => h (by rw [← hc]; exact List.mem_cons_self _ _)),
      ih (fun hc => h (List.mem_cons_of_mem _ hc))]

lemma mem_of_cnt_pos {a : String} {l : List String} (h : 0 < cnt a l) : a ∈ l := by
  by_contra hc
  rw [cnt_eq_zero_of_not_mem hc] at h
  omega

/-- Occurrence count of the elements of `l` that lie outside `res`. -/
def cntNot (res : List String) : List String → Nat
  | [] => 0
  | b :: l => (if b ∈ res then 0 else 1) + cntNot res l

lemma cntNot_eq_zero_iff {res l : List String} :
    cntNot res l = 0 ↔ ∀ d ∈ l, d ∈ res := by
  induction l with
  | nil => simp [cntNot]
  | cons b l ih =>
    rw [cntNot]
    by_cases hb : b ∈ res
    · simp [hb, ih]
    · simp [hb]

/-- Removing one name from the "pending" set: adding `n` to `res`
accounts for exactly the occurrences of `n`. -/
lemma cntNot_append_single {res l : List String} {n : String} (hn : n ∉ res) :
    cntNot (res ++ [n]) l + cnt n l = cntNot res l := by
  induction l with
  | nil => rfl
  | cons b l ih =>
    rw [cntNot, cntNot, cnt]
    by_cases hb : b ∈ res
    · have hb' : b ∈ res ++ [n] := List.mem_append_left _ hb
      have hbn : ¬ b = n := fun hc => hn (hc ▸ hb)
      rw [if_pos hb, if_pos hb', if_neg hbn]
      omega
    · by_cases hbn : b = n
      · subst hbn
        rw [if_neg hb, if_pos (List.mem_append_right _ (List.mem_cons_self _ _)),
          if_pos rfl]
        omega
      · have hb' : b ∉ res ++ [n] := by
          intro hc
          rcases List.mem_append.1 hc with h | h
          · exact hb h
          · rcases List.mem_cons.1 h with h | h
            · exact hbn h
            · cases h
        rw [if_neg hb, if_neg hb', if_neg hbn]
        omega

/-- Number of times `q` occurs among the dependencies recorded for `m`
across the (so far processed) graph entries. -/
def countA (g : List (String × List String)) (q m : String) : Nat :=
  (g.map (fun p => if p.1 = m then cnt q p.2 else 0)).sum

lemma countA_nil (q m : String) : countA [] q m = 0 := rfl

lemma countA_cons (p : String × List String) (g : List (String × List String))
    (q m : String) :
    countA (p :: g) q m = (if p.1 = m then cnt q p.2 else 0) + countA g q m := by
  simp [countA]

lemma countA_eq_zero {g : List (String × List String)} {m : String}
    (h : m ∉ keys g) (q : String) : countA g q m = 0 := by
  induction g with
  | nil => rfl
  | cons p rest ih =>
    rw [countA_cons,
      if_neg (fun hc => h (by rw [← hc]; exact List.mem_map_of_mem Prod.fst (List.mem_cons_self p rest))),
      ih (fun hc => h (List.mem_cons_of_mem _ hc))]

lemma countA_eq_cnt {g : List (String × List String)} (hnd : (keys g).Nodup)
    (q m : String) : countA g q m = cnt q ((lookup? m g).getD []) := by
  induction g with
  | nil => rfl
  | cons p rest ih =>
    obtain ⟨k, ds⟩ := p
    rw [keys_cons] at hnd
    by_cases h : k = m
    · subst h
      rw [countA_cons, if_pos rfl]
      have hl : lookup? k ((k, ds) :: rest) = some ds := by
        show (if k = k then some ds else lookup? k rest) = some ds
        rw [if_pos rfl]
      rw [hl, Option.getD_some, countA_eq_zero (List.nodup_cons.1 hnd).1 q]
      show cnt q ds + 0 = cnt q ds
      omega
    · rw [countA_cons, if_neg h]
      have hl : lookup? m ((k, ds) :: rest) = lookup? m rest := by
        show (if k = m then some ds else lookup? m rest) = lookup? m rest
        rw [if_neg h]
      rw [hl, ih (List.nodup_cons.1 hnd).2]
      omega

/-- One graph entry of the first `topological_sort` loop. -/
def initStep (st : List (String × Nat) × List (String × List String))
    (node : String × List String) :
    List (String × Nat) × List (String × List String) :=
  node.2.foldl
    (fun st2 dep => (entryOrInsert0 dep st2.1, adjPush dep node.1 st2.2))
    (entryOrInsert0 node.1 st.1, st.2)

lemma initPass_eq_foldl (g : List (String × List String)) :
    initPass g = g.foldl initStep ([], []) := rfl

lemma entryOrInsert0_spec (k : String) (m : List (String × Nat))
    (h0 : ∀ x cnt, lookup? x m = some cnt → cnt = 0) (hnd : (keys m).Nodup) :
    (∀ x cnt, lookup? x (entryOrInsert0 k m) = some cnt → cnt = 0) ∧
    (keys (entryOrInsert0 k m)).Nodup ∧
    (∀ x, x ∈ keys (entryOrInsert0 k m) ↔ x ∈ keys m ∨ x = k) := by
  by_cases hk : k ∈ keys m
  · rw [entryOrInsert0_of_mem hk]
    refine ⟨h0, hnd, fun x => ⟨Or.inl, fun h => ?_⟩⟩
    rcases h with h | h
    · exact h
    · rw [h]; exact hk
  · rw [entryOrInsert0_of_not_mem hk]
    refine ⟨?_, ?_, fun x => ?_⟩
    · intro x cnt hl
      rw [lookup?_append] at hl
      cases hx : lookup? x m with
      | some v => rw [hx] at hl; cases hl; exact h0 x _ hx
      | none =>
        rw [hx] at hl
        simp only [lookup?] at hl
        by_cases hxk : k = x
        · rw [if_pos hxk] at hl; cases hl; rfl
        · rw [if_neg hxk] at hl; cases hl
    · have hke : keys (m ++ [(k, 0)]) = keys m ++ [k] := by simp [keys]
      rw [hke]
      simp [List.nodup_append, hnd, hk]
    · have hke : keys (m ++ [(k, 0)]) = keys m ++ [k] := by simp [keys]
      rw [hke]
      simp

/-- Effect of processing one node's dependency list in the first loop. -/
lemma initInner_spec (n : String) (ds : List String) :
    ∀ (deg : List (String × Nat)) (adj : List (String × List String))
      (Q : String → Prop) (F : String → String → Nat),
      (∀ x c, lookup? x deg = some c → c = 0) →
      (keys deg).Nodup →
      (∀ x, x ∈ keys deg ↔ Q x) →
      (∀ q m, cnt m ((lookup? q adj).getD []) = F q m) →
      (∀ x c, lookup? x
          (ds.foldl (fun st2 dep => (entryOrInsert0 dep st2.1, adjPush dep n st2.2))
            (deg, adj)).1 = some c → c = 0) ∧
      (keys (ds.foldl (fun st2 dep => (entryOrInsert0 dep st2.1, adjPush dep n st2.2))
            (deg, adj)).1).Nodup ∧
      (∀ x, x ∈ keys (ds.foldl (fun st2 dep => (entryOrInsert0 dep st2.1, adjPush dep n st2.2))
            (deg, adj)).1 ↔ Q x ∨ x ∈ ds) ∧
      (∀ q m, cnt m ((lookup? q
          (ds.foldl (fun st2 dep => (entryOrInsert0 dep st2.1, adjPush dep n st2.2))
            (deg, adj)).2).getD []) =
        F q m + (if m = n then cnt q ds else 0)) := by
  induction ds with
  | nil =>
    intro deg adj Q F h0 hnd hQ hF
    simp only [List.foldl_nil]
    refine ⟨h0, hnd, fun x => by simpa using hQ x, fun q m => ?_⟩
    rw [hF]
    simp [cnt]
  | cons d rest ih =>
    intro deg adj Q F h0 hnd hQ hF
    simp only [List.foldl_cons]
    obtain ⟨e0, end_, eQ⟩ := entryOrInsert0_spec d deg h0 hnd
    have hF' : ∀ q m, cnt m ((lookup? q (adjPush d n adj)).getD []) =
        F q m + (if q = d ∧ m = n then 1 else 0) := by
      intro q m
      by_cases hq : q = d
      · subst hq
        rw [adjPush_lookup_self, Option.getD_some, cnt_append, hF]
        congr 1
        by_cases hm : m = n
        · subst hm
          rw [if_pos ⟨rfl, rfl⟩]
          simp [cnt]
        · rw [if_neg (fun hc => hm hc.2)]
          show cnt m [n] = 0
          rw [cnt, if_neg (fun hc => hm hc.symm), cnt]
      · rw [adjPush_lookup_ne n adj hq, hF, if_neg (fun hc => hq hc.1)]
        omega
    have hQ' : ∀ x, x ∈ keys (entryOrInsert0 d deg) ↔ Q x ∨ x = d := by
      intro x
      rw [eQ x, hQ x]
    obtain ⟨r0, rnd, rQ, rF⟩ := ih (entryOrInsert0 d deg) (adjPush d n adj)
      (fun x => Q x ∨ x = d) (fun q m => F q m + if q = d ∧ m = n then 1 else 0)
      e0 end_ hQ' hF'
    refine ⟨r0, rnd, fun x => ?_, fun q m => ?_⟩
    · rw [rQ x]
      simp only [List.mem_cons]
      tauto
    · rw [rF q m, cnt]
      by_cases hm : m = n
      · subst hm
        by_cases hq : q = d
        · subst hq
          simp
          try omega
        · simp [hq, Ne.symm hq]
          try omega
      · simp [hm]
        try omega

/-- Cumulative effect of the first `topological_sort` loop. -/
lemma initFold_spec (g : List (String × List String)) :
    ∀ (deg : List (String × Nat)) (adj : List (String × List String))
      (Q : String → Prop) (F : String → String → Nat),
      (∀ x c, lookup? x deg = some c → c = 0) →
      (keys deg).Nodup →
      (∀ x, x ∈ keys deg ↔ Q x) →
      (∀ q m, cnt m ((lookup? q adj).getD []) = F q m) →
      (∀ x c, lookup? x (g.foldl initStep (deg, adj)).1 = some c → c = 0) ∧
      (keys (g.foldl initStep (deg, adj)).1).Nodup ∧
      (∀ x, x ∈ keys (g.foldl initStep (deg, adj)).1 ↔
        Q x ∨ x ∈ keys g ∨ ∃ p ∈ g, x ∈ p.2) ∧
      (∀ q m, cnt m ((lookup? q (g.foldl initStep (deg, adj)).2).getD []) =
        F q m + countA g q m) := by
  induction g with
  | nil =>
    intro deg adj Q F h0 hnd hQ hF
    simp only [List.foldl_nil]
    refine ⟨h0, hnd, fun x => ?_, fun q m => ?_⟩
    · constructor
      · intro h
        exact Or.inl ((hQ x).1 h)
      · rintro (h | h | ⟨p, hp, _⟩)
        · exact (hQ x).2 h
        · cases h
        · cases hp
    · rw [hF, countA_nil]
      omega
  | cons node rest ih =>
    intro deg adj Q F h0 hnd hQ hF
    simp only [List.foldl_cons]
    obtain ⟨e0, end_, eQ⟩ := entryOrInsert0_spec node.1 deg h0 hnd
    obtain ⟨i0, ind_, iQ, iF⟩ := initInner_spec node.1 node.2 (entryOrInsert0 node.1 deg)
      adj (fun x => Q x ∨ x = node.1) F e0 end_ (fun x => by rw [eQ x, hQ x]) hF
    have hpair : initStep (deg, adj) node =
        (node.2.foldl (fun st2 dep => (entryOrInsert0 dep st2.1, adjPush dep node.1 st2.2))
          (entryOrInsert0 node.1 deg, adj)) := rfl
    rw [hpair]
    obtain ⟨r0, rnd, rQ, rF⟩ := ih _ _
      (fun x => (Q x ∨ x = node.1) ∨ x ∈ node.2)
      (fun q m => F q m + if m = node.1 then cnt q node.2 else 0)
      i0 ind_ iQ iF
    refine ⟨r0, rnd, fun x => ?_, fun q m => ?_⟩
    · rw [rQ x]
      simp only [keys_cons, List.mem_cons]
      constructor
      · rintro (((h | h) | h) | h | h)
        · exact Or.inl h
        · exact Or.inr (Or.inl (Or.inl h))
        · exact Or.inr (Or.inr ⟨node, Or.inl rfl, h⟩)
        · exact Or.inr (Or.inl (Or.inr h))
        · rcases h with ⟨p, hp, hx⟩
          exact Or.inr (Or.inr ⟨p, Or.inr hp, hx⟩)
      · rintro (h | (h | h) | ⟨p, hp, hx⟩)
        · exact Or.inl (Or.inl (Or.inl h))
        · exact Or.inl (Or.inl (Or.inr h))
        · exact Or.inr (Or.inl h)
        · rcases hp with h | h
          · subst h; exact Or.inl (Or.inr hx)
          · exact Or.inr (Or.inr ⟨p, h, hx⟩)
    · rw [rF q m, countA_cons]
      by_cases hm : node.1 = m
      · rw [if_pos hm, if_pos hm.symm]
        omega
      · rw [if_neg hm, if_neg (fun hc => hm hc.symm)]
        omega

lemma setDegrees_lookup_not_mem {g : List (String × List String)}
    {deg : List (String × Nat)} {x : String} (h : x ∉ keys g) :
    lookup? x (setDegrees g deg) = lookup? x deg := by
  induction g generalizing deg with
  | nil => rfl
  | cons p rest ih =>
    have hx : x ∉ keys rest := fun hc => h (List.mem_cons_of_mem _ hc)
    have hne : x ≠ p.1 := fun hc => h (by rw [keys_cons, hc]; exact List.mem_cons_self _ _)
    show lookup? x (setDegrees rest (upsert p.1 p.2.length deg)) = lookup? x deg
    rw [ih hx, upsert_lookup_ne _ _ hne]

lemma setDegrees_keys {g : List (String × List String)} {deg : List (String × Nat)}
    (h : ∀ k ∈ keys g, k ∈ keys deg) : keys (setDegrees g deg) = keys deg := by
  induction g generalizing deg with
  | nil => rfl
  | cons p rest ih =>
    show keys (setDegrees rest (upsert p.1 p.2.length deg)) = keys deg
    have hp : p.1 ∈ keys deg := h p.1 (by rw [keys_cons]; exact List.mem_cons_self _ _)
    rw [ih (fun k hk => by
      rw [upsert_keys_of_mem _ hp]
      exact h k (List.mem_cons_of_mem _ hk))]
    exact upsert_keys_of_mem _ hp

lemma setDegrees_lookup_mem {g : List (String × List String)}
    {deg : List (String × Nat)} {x : String} {ds : List String}
    (hnd : (keys g).Nodup) (hm : (x, ds) ∈ g) :
    lookup? x (setDegrees g deg) = some ds.length := by
  induction g generalizing deg with
  | nil => cases hm
  | cons p rest ih =>
    rw [keys_cons] at hnd
    rcases List.mem_cons.1 hm with h | h
    · subst h
      show lookup? x (setDegrees rest (upsert x ds.length deg)) = some ds.length
      rw [setDegrees_lookup_not_mem (List.nodup_cons.1 hnd).1,
        upsert_lookup_self]
    · show lookup? x (setDegrees rest (upsert p.1 p.2.length deg)) = some ds.length
      exact ih (List.nodup_cons.1 hnd).2 h

/-! ### The neighbour-decrement loop of the Kahn pass -/

/-- Full characterisation of `processNeighbors`: every count drops by the
multiplicity of its key among the processed neighbours, and the names
appended to the queue are exactly those whose count crosses zero (each
appended once). -/
lemma processNeighbors_spec (ns : List String) :
    ∀ (deg : List (String × Nat)) (queue : List String),
      (∀ x, lookup? x (processNeighbors deg queue ns).1 =
        (lookup? x deg).map (fun c => c - cnt x ns)) ∧
      (∃ app, (processNeighbors deg queue ns).2 = queue ++ app ∧ app.Nodup ∧
        (∀ x, x ∈ app ↔ ∃ c, lookup? x deg = some c ∧ 1 ≤ c ∧ c ≤ cnt x ns)) := by
  induction ns with
  | nil =>
    intro deg queue
    constructor
    · intro x
      show lookup? x deg = (lookup? x deg).map (fun c => c - cnt x [])
      cases lookup? x deg with
      | none => rfl
      | some c =>
        show some c = some (c - cnt x [])
        rw [cnt]
        rfl
    · refine ⟨[], by simp [processNeighbors], List.nodup_nil, fun x => ?_⟩
      simp only [List.not_mem_nil, false_iff]
      rintro ⟨c, _, h1, h2⟩
      rw [cnt] at h2
      omega
  | cons n rest ih =>
    intro deg queue
    cases hn : lookup? n deg with
    | none =>
      have heq : processNeighbors deg queue (n :: rest) = processNeighbors deg queue rest := by
        simp [processNeighbors, hn]
      rw [heq]
      obtain ⟨ihc, app, happ, hnd2, hiff⟩ := And.intro (ih deg queue).1 (ih deg queue).2
      constructor
      · intro x
        rw [ihc x]
        by_cases hx : x = n
        · subst hx
          rw [hn]
          rfl
        · have hcnt : cnt x (n :: rest) = cnt x rest := by
            show (if n = x then 1 else 0) + cnt x rest = cnt x rest
            rw [if_neg (fun hc => hx hc.symm)]
            omega
          rw [hcnt]
      · refine ⟨app, happ, hnd2, fun x => ?_⟩
        rw [hiff x]
        by_cases hx : x = n
        · subst hx
          rw [hn]
          constructor
          · rintro ⟨c, hc, _⟩; cases hc
          · rintro ⟨c, hc, _⟩; cases hc
        · have hcnt : cnt x (n :: rest) = cnt x rest := by
            show (if n = x then 1 else 0) + cnt x rest = cnt x rest
            rw [if_neg (fun hc => hx hc.symm)]
            omega
          rw [hcnt]
    | some c0 =>
      have heq : processNeighbors deg queue (n :: rest) =
          processNeighbors (upsert n (c0 - 1) deg)
            (if c0 = 1 then queue ++ [n] else queue) rest := by
        simp [processNeighbors, hn]
      rw [heq]
      have IH := ih (upsert n (c0 - 1) deg) (if c0 = 1 then queue ++ [n] else queue)
      constructor
      · intro x
        rw [IH.1 x]
        by_cases hx : x = n
        · subst hx
          rw [upsert_lookup_self, hn]
          show some ((c0 - 1) - cnt x rest) =
            some (c0 - ((if x = x then 1 else 0) + cnt x rest))
          rw [if_pos rfl]
          congr 1
          omega
        · rw [upsert_lookup_ne _ _ hx]
          have hcnt : cnt x (n :: rest) = cnt x rest := by
            show (if n = x then 1 else 0) + cnt x rest = cnt x rest
            rw [if_neg (fun hc => hx hc.symm)]
            omega
          rw [hcnt]
      · obtain ⟨app, he, hnd2, hiff⟩ := IH.2
        refine ⟨(if c0 = 1 then [n] else []) ++ app, ?_, ?_, fun x => ?_⟩
        · rw [he]
          by_cases h1 : c0 = 1 <;> simp [h1, List.append_assoc]
        · by_cases h1 : c0 = 1
          · rw [if_pos h1]
            refine List.nodup_cons.2 ⟨?_, hnd2⟩
            intro hc
            obtain ⟨c, hlc, hc1, hc2⟩ := (hiff n).1 hc
            rw [upsert_lookup_self] at hlc
            cases hlc
            omega
          · rw [if_neg h1]
            exact hnd2
        · rw [List.mem_append]
          by_cases hx : x = n
          · subst hx
            have hxa : x ∈ app ↔ 2 ≤ c0 ∧ c0 ≤ 1 + cnt x rest := by
              rw [hiff x, upsert_lookup_self]
              constructor
              · rintro ⟨c, hc, h1, h2⟩
                cases hc
                omega
              · rintro ⟨h1, h2⟩
                exact ⟨c0 - 1, rfl, by omega, by omega⟩
            have hcnt : cnt x (x :: rest) = 1 + cnt x rest := by
              show (if x = x then 1 else 0) + cnt x rest = 1 + cnt x rest
              rw [if_pos rfl]
            rw [hxa, hcnt]
            by_cases h1 : c0 = 1
            · rw [if_pos h1]
              subst h1
              simp only [List.mem_cons, List.not_mem_nil, or_false]
              constructor
              · intro _; exact ⟨1, hn, le_refl 1, by omega⟩
              · intro _; exact Or.inl trivial
            · rw [if_neg h1]
              simp only [List.not_mem_nil, false_or]
              constructor
              · rintro ⟨h2, h3⟩
                exact ⟨c0, hn, by omega, h3⟩
              · rintro ⟨c, hc, hc1, hc2⟩
                cases hn ▸ hc
                exact ⟨by omega, by omega⟩
          · have hxa := hiff x
            rw [upsert_lookup_ne _ _ hx] at hxa
            have hcnt : cnt x (n :: rest) = cnt x rest := by
              show (if n = x then 1 else 0) + cnt x rest = cnt x rest
              rw [if_neg (fun hc => hx hc.symm)]
              omega
            rw [hcnt]
            have hni : x ∉ (if c0 = 1 then [n] else ([] : List String)) := by
              by_cases h1 : c0 = 1
              · rw [if_pos h1]
                intro hc
                rcases List.mem_cons.1 hc with h | h
                · exact hx h
                · cases h
              · rw [if_neg h1]
                exact List.not_mem_nil x
            constructor
            · rintro (h | h)
              · exact absurd h hni
              · exact (hxa).1 h
            · intro h
              exact Or.inr ((hxa).2 h)

/-! ### Positions in the emitted order -/

/-- Index of the first occurrence of a name (length when absent). -/
def idxOf (a : String) : List String → Nat
  | [] => 0
  | b :: l => if b = a then 0 else idxOf a l + 1

lemma idxOf_append_of_mem {a : String} {l : List String} (h : a ∈ l) (l' : List String) :
    idxOf a (l ++ l') = idxOf a l := by
  induction l with
  | nil => cases h
  | cons b l ih =>
    show (if b = a then 0 else idxOf a (l ++ l') + 1) =
      (if b = a then 0 else idxOf a l + 1)
    by_cases hb : b = a
    · rw [if_pos hb, if_pos hb]
    · rw [if_neg hb, if_neg hb, ih (by
        rcases List.mem_cons.1 h with h1 | h1
        · exact absurd h1.symm hb
        · exact h1)]

lemma idxOf_append_of_not_mem {a : String} {l : List String} (h : a ∉ l)
    (l' : List String) : idxOf a (l ++ l') = l.length + idxOf a l' := by
  induction l with
  | nil => simp [idxOf]
  | cons b l ih =>
    have hb : b ≠ a := fun hc => h (by rw [hc]; exact List.mem_cons_self _ _)
    show (if b = a then 0 else idxOf a (l ++ l') + 1) = l.length + 1 + idxOf a l'
    rw [if_neg hb, ih (fun hc => h (List.mem_cons_of_mem _ hc))]
    omega

lemma idxOf_lt_length {a : String} {l : List String} (h : a ∈ l) :
    idxOf a l < l.length := by
  induction l with
  | nil => cases h
  | cons b l ih =>
    show (if b = a then 0 else idxOf a l + 1) < l.length + 1
    by_cases hb : b = a
    · rw [if_pos hb]; omega
    · rw [if_neg hb]
      have hm : a ∈ l := by
        rcases List.mem_cons.1 h with h1 | h1
        · exact absurd h1.symm hb
        · exact h1
      have := ih hm
      omega

lemma cntNot_nil_length (l : List String) : cntNot [] l = l.length := by
  induction l with
  | nil => rfl
  | cons b l ih =>
    show (if b ∈ ([] : List String) then 0 else 1) + cntNot [] l = l.length + 1
    rw [if_neg (List.not_mem_nil b), ih]
    omega

/-! ### Invariant of the Kahn loop -/

/-- One pop of the Kahn loop preserves the invariant bundle. -/
lemma kahnStep_inv (g adj : List (String × List String)) (K : List String)
    (hadj : ∀ q m, cnt m ((lookup? q adj).getD []) = cnt q ((lookup? m g).getD []))
    (deg : List (String × Nat)) (node : String) (rest result : List String)
    (hK1 : ∀ x ∈ K, ∃ c, lookup? x deg = some c)
    (hK2 : ∀ x c, lookup? x deg = some c → x ∈ K)
    (hnd : (result ++ node :: rest).Nodup)
    (hresK : ∀ x ∈ result, x ∈ K)
    (hqK : ∀ x ∈ node :: rest, x ∈ K)
    (hcount : ∀ x c, lookup? x deg = some c → c = cntNot result ((lookup? x g).getD []))
    (hzero : ∀ x ∈ K, (x ∈ result ∨ x ∈ node :: rest) ↔ lookup? x deg = some 0)
    (hclosed : ∀ x ∈ result, ∀ d ∈ (lookup? x g).getD [],
      d ∈ result ∧ idxOf d result < idxOf x result) :
    (∀ x ∈ K, ∃ c, lookup? x
      (processNeighbors deg rest ((lookup? node adj).getD [])).1 = some c) ∧
    (∀ x c, lookup? x
      (processNeighbors deg rest ((lookup? node adj).getD [])).1 = some c → x ∈ K) ∧
    ((result ++ [node]) ++
      (processNeighbors deg rest ((lookup? node adj).getD [])).2).Nodup ∧
    (∀ x ∈ result ++ [node], x ∈ K) ∧
    (∀ x ∈ (processNeighbors deg rest ((lookup? node adj).getD [])).2, x ∈ K) ∧
    (∀ x c, lookup? x
        (processNeighbors deg rest ((lookup? node adj).getD [])).1 = some c →
      c = cntNot (result ++ [node]) ((lookup? x g).getD [])) ∧
    (∀ x ∈ K, (x ∈ result ++ [node] ∨
        x ∈ (processNeighbors deg rest ((lookup? node adj).getD [])).2) ↔
      lookup? x (processNeighbors deg rest ((lookup? node adj).getD [])).1 = some 0) ∧
    (∀ x ∈ result ++ [node], ∀ d ∈ (lookup? x g).getD [],
      d ∈ result ++ [node] ∧ idxOf d (result ++ [node]) < idxOf x (result ++ [node])) := by
  have hnodeK : node ∈ K := hqK node (List.mem_cons_self _ _)
  have hdisj : result.Disjoint (node :: rest) := (List.nodup_append.1 hnd).2.2
  have hnres : node ∉ result := fun hc => hdisj hc (List.mem_cons_self _ _)
  have hnode0 : lookup? node deg = some 0 :=
    (hzero node hnodeK).1 (Or.inr (List.mem_cons_self _ _))
  have hdeps : ∀ d ∈ (lookup? node g).getD [], d ∈ result := by
    have h0 := hcount node 0 hnode0
    exact cntNot_eq_zero_iff.1 h0.symm
  obtain ⟨hcnew, app, happ, hando, happiff⟩ :=
    And.intro (processNeighbors_spec ((lookup? node adj).getD []) deg rest).1
      (processNeighbors_spec ((lookup? node adj).getD []) deg rest).2
  have hcntns : ∀ x, cnt x ((lookup? node adj).getD []) =
      cnt node ((lookup? x g).getD []) := fun x => hadj node x
  have happK : ∀ x ∈ app, x ∈ K := by
    intro x hx
    obtain ⟨c, hc, _, _⟩ := (happiff x).1 hx
    exact hK2 x c hc
  have happ_fresh : ∀ x ∈ app, x ∉ result ∧ x ≠ node ∧ x ∉ rest := by
    intro x hx
    obtain ⟨c, hc, hc1, _⟩ := (happiff x).1 hx
    have hxK := hK2 x c hc
    have hnot : ¬ (x ∈ result ∨ x ∈ node :: rest) := by
      intro hor
      have := (hzero x hxK).1 hor
      rw [hc] at this
      cases this
      omega
    push_neg at hnot
    refine ⟨hnot.1, ?_, ?_⟩
    · intro hc2
      exact hnot.2 (by rw [hc2]; exact List.mem_cons_self _ _)
    · intro hc2
      exact hnot.2 (List.mem_cons_of_mem _ hc2)
  have hnd1 : ((result ++ [node]) ++ rest).Nodup := by
    rw [← List.append_cons]
    exact hnd
  refine ⟨?_, ?_, ?_, ?_, ?_, ?_, ?_, ?_⟩
  · intro x hx
    obtain ⟨c, hc⟩ := hK1 x hx
    exact ⟨c - cnt x ((lookup? node adj).getD []), by rw [hcnew x, hc]; rfl⟩
  · intro x c hc
    rw [hcnew x] at hc
    cases hl : lookup? x deg with
    | none => rw [hl] at hc; cases hc
    | some c1 => exact hK2 x c1 hl
  · rw [happ]
    rw [List.nodup_append] at hnd1 ⊢
    obtain ⟨hn1, hn2, hd12⟩ := hnd1
    refine ⟨hn1, ?_, ?_⟩
    · rw [List.nodup_append]
      refine ⟨hn2, hando, ?_⟩
      intro a ha hc
      exact (happ_fresh a hc).2.2 ha
    · intro a ha hc
      rcases List.mem_append.1 hc with h | h
      · exact hd12 ha h
      · rcases List.mem_append.1 ha with h1 | h1
        · exact (happ_fresh a h).1 h1
        · rcases List.mem_cons.1 h1 with h2 | h2
          · exact (happ_fresh a h).2.1 h2
          · cases h2
  · intro x hx
    rcases List.mem_append.1 hx with h | h
    · exact hresK x h
    · rcases List.mem_cons.1 h with h1 | h1
      · rw [h1]; exact hnodeK
      · cases h1
  · intro x hx
    rw [happ] at hx
    rcases List.mem_append.1 hx with h | h
    · exact hqK x (List.mem_cons_of_mem _ h)
    · exact happK x h
  · intro x c hc
    rw [hcnew x] at hc
    cases hl : lookup? x deg with
    | none => rw [hl] at hc; cases hc
    | some c1 =>
      rw [hl] at hc
      have hcx : c = c1 - cnt node ((lookup? x g).getD []) := by
        have hc2 : some (c1 - cnt x ((lookup? node adj).getD [])) = some c := hc
        rw [hcntns x] at hc2
        exact (Option.some_inj.1 hc2).symm
      have hold := hcount x c1 hl
      have hsum := @cntNot_append_single result
        ((lookup? x g).getD []) node hnres
      omega
  · intro x hx
    obtain ⟨c, hc⟩ := hK1 x hx
    rw [hcnew x, hc]
    have hold := hcount x c hc
    have hsum := @cntNot_append_single result
      ((lookup? x g).getD []) node hnres
    constructor
    · intro hor
      have hc0 : c - cnt x ((lookup? node adj).getD []) = 0 := by
        rcases hor with h | h
        · rcases List.mem_append.1 h with h1 | h1
          · have := (hzero x hx).1 (Or.inl h1)
            rw [hc] at this
            cases this
            omega
          · rcases List.mem_cons.1 h1 with h2 | h2
            · subst h2
              rw [hc] at hnode0
              cases hnode0
              omega
            · cases h2
        · rw [happ] at h
          rcases List.mem_append.1 h with h1 | h1
          · have := (hzero x hx).1 (Or.inr (List.mem_cons_of_mem _ h1))
            rw [hc] at this
            cases this
            omega
          · obtain ⟨c2, hc2, hb1, hb2⟩ := (happiff x).1 h1
            rw [hc] at hc2
            cases hc2
            omega
      show some (c - cnt x ((lookup? node adj).getD [])) = some 0
      rw [hc0]
    · intro hz
      have hc0 : c - cnt x ((lookup? node adj).getD []) = 0 := by
        have hz2 : some (c - cnt x ((lookup? node adj).getD [])) = some 0 := hz
        exact Option.some_inj.1 hz2
      by_cases hcz : c = 0
      · subst hcz
        have := (hzero x hx).2 hc
        rcases this with h | h
        · exact Or.inl (List.mem_append_left _ h)
        · rcases List.mem_cons.1 h with h1 | h1
          · exact Or.inl (List.mem_append_right _ (by rw [h1]; exact List.mem_cons_self _ _))
          · exact Or.inr (by rw [happ]; exact List.mem_append_left _ h1)
      · refine Or.inr (by
          rw [happ]
          refine List.mem_append_right _ ((happiff x).2 ⟨c, hc, by omega, by omega⟩))
  · intro x hx d hd
    rcases List.mem_append.1 hx with h | h
    · obtain ⟨hdm, hdi⟩ := hclosed x h d hd
      refine ⟨List.mem_append_left _ hdm, ?_⟩
      rw [idxOf_append_of_mem hdm, idxOf_append_of_mem h]
      exact hdi
    · rcases List.mem_cons.1 h with h1 | h1
      · subst h1
        have hdm := hdeps d hd
        refine ⟨List.mem_append_left _ hdm, ?_⟩
        rw [idxOf_append_of_mem hdm, idxOf_append_of_not_mem hnres]
        have := idxOf_lt_length hdm
        omega
      · cases h1

/-- The Kahn loop keeps its output duplicate-free, inside the key set,
and prefix-closed under the graph's dependency edges. -/
lemma kahnLoop_inv (g adj : List (String × List String)) (K : List String)
    (hadj : ∀ q m, cnt m ((lookup? q adj).getD []) = cnt q ((lookup? m g).getD [])) :
    ∀ fuel deg queue result,
      (∀ x ∈ K, ∃ c, lookup? x deg = some c) →
      (∀ x c, lookup? x deg = some c → x ∈ K) →
      (result ++ queue).Nodup →
      (∀ x ∈ result, x ∈ K) →
      (∀ x ∈ queue, x ∈ K) →
      (∀ x c, lookup? x deg = some c → c = cntNot result ((lookup? x g).getD [])) →
      (∀ x ∈ K, (x ∈ result ∨ x ∈ queue) ↔ lookup? x deg = some 0) →
      (∀ x ∈ result, ∀ d ∈ (lookup? x g).getD [],
        d ∈ result ∧ idxOf d result < idxOf x result) →
      ((kahnLoop adj fuel deg queue result).2).Nodup ∧
      (∀ x ∈ (kahnLoop adj fuel deg queue result).2, x ∈ K) ∧
      (∀ x ∈ (kahnLoop adj fuel deg queue result).2,
        ∀ d ∈ (lookup? x g).getD [],
          d ∈ (kahnLoop adj fuel deg queue result).2 ∧
          idxOf d (kahnLoop adj fuel deg queue result).2 <
            idxOf x (kahnLoop adj fuel deg queue result).2) := by
  intro fuel
  induction fuel with
  | zero =>
    intro deg queue result _ _ hnd hresK _ _ _ hclosed
    exact ⟨(List.nodup_append.1 hnd).1, hresK, hclosed⟩
  | succ f ih =>
    intro deg queue result hK1 hK2 hnd hresK hqK hcount hzero hclosed
    cases queue with
    | nil =>
      exact ⟨(List.nodup_append.1 hnd).1, hresK, hclosed⟩
    | cons node rest =>
      obtain ⟨s1, s2, s3, s4, s5, s6, s7, s8⟩ :=
        kahnStep_inv g adj K hadj deg node rest result
          hK1 hK2 hnd hresK hqK hcount hzero hclosed
      cases hn : lookup? node adj with
      | none =>
        have hred : kahnLoop adj (f + 1) deg (node :: rest) result =
            kahnLoop adj f
              (processNeighbors deg rest ((lookup? node adj).getD [])).1
              (processNeighbors deg rest ((lookup? node adj).getD [])).2
              (result ++ [node]) := by
          simp [kahnLoop, hn, processNeighbors]
        rw [hred]
        exact ih _ _ (result ++ [node]) s1 s2 s3 s4 s5 s6 s7 s8
      | some nbrs =>
        have hred : kahnLoop adj (f + 1) deg (node :: rest) result =
            kahnLoop adj f
              (processNeighbors deg rest ((lookup? node adj).getD [])).1
              (processNeighbors deg rest ((lookup? node adj).getD [])).2
              (result ++ [node]) := by
          simp [kahnLoop, hn]
        rw [hred]
        exact ih _ _ (result ++ [node]) s1 s2 s3 s4 s5 s6 s7 s8

lemma mem_keys_of_mem_filterZero {deg : List (String × Nat)} {x : String}
    (h : x ∈ (deg.filter (fun e => e.2 == 0)).map Prod.fst) : x ∈ keys deg := by
  obtain ⟨e, he, hx⟩ := List.mem_map.1 h
  exact hx ▸ List.mem_map_of_mem Prod.fst (List.mem_of_mem_filter he)

lemma filterZero_mem {deg : List (String × Nat)} (hnd : (keys deg).Nodup) (x : String) :
    x ∈ (deg.filter (fun e => e.2 == 0)).map Prod.fst ↔ lookup? x deg = some 0 := by
  induction deg with
  | nil => simp [lookup?]
  | cons p rest ih =>
    obtain ⟨k, v⟩ := p
    rw [keys_cons] at hnd
    by_cases hv : v = 0
    · subst hv
      rw [List.filter_cons_of_pos (by simp)]
      by_cases hx : k = x
      · subst hx
        simp only [List.map_cons, List.mem_cons]
        constructor
        · intro _
          show (if k = k then some 0 else lookup? k rest) = some 0
          rw [if_pos rfl]
        · intro _
          exact Or.inl trivial
      · simp only [List.map_cons, List.mem_cons]
        rw [ih (List.nodup_cons.1 hnd).2]
        show (x = k ∨ lookup? x rest = some 0) ↔
          (if k = x then some 0 else lookup? x rest) = some 0
        rw [if_neg hx]
        constructor
        · rintro (h1 | h1)
          · exact absurd h1.symm hx
          · exact h1
        · exact Or.inr
    · rw [List.filter_cons_of_neg (by simp [hv])]
      by_cases hx : k = x
      · subst hx
        constructor
        · intro h
          exact absurd (mem_keys_of_mem_filterZero h) (List.nodup_cons.1 hnd).1
        · intro h
          rw [show lookup? k ((k, v) :: rest) = some v from by
            show (if k = k then some v else lookup? k rest) = some v
            rw [if_pos rfl]] at h
          cases h
          exact absurd rfl hv
      · rw [ih (List.nodup_cons.1 hnd).2]
        show _ ↔ (if k = x then some v else lookup? x rest) = some 0
        rw [if_neg hx]

lemma filterZero_nodup {deg : List (String × Nat)} (hnd : (keys deg).Nodup) :
    ((deg.filter (fun e => e.2 == 0)).map Prod.fst).Nodup := by
  have hsub : List.Sublist ((deg.filter (fun e => e.2 == 0)).map Prod.fst)
      (deg.map Prod.fst) :=
    (List.filter_sublist deg).map Prod.fst
  exact hsub.nodup hnd

/-- Everything `topological_sort` promises on success: the output is
duplicate-free, all names come from the graph (as node or dependency),
and every node appears after all of its graph dependencies. -/
lemma topological_sort_spec {g : List (String × List String)} (hgnd : (keys g).Nodup)
    {sorted : List String} (h : topological_sort g = Except.ok sorted) :
    sorted.Nodup ∧
    (∀ x ∈ sorted, x ∈ keys g ∨ ∃ p ∈ g, x ∈ p.2) ∧
    (∀ x ∈ sorted, ∀ d ∈ (lookup? x g).getD [],
      d ∈ sorted ∧ idxOf d sorted < idxOf x sorted) := by
  obtain ⟨h0, hnd0, hmem0, hadj0⟩ := initFold_spec g [] [] (fun _ => False) (fun _ _ => 0)
    (fun x c hc => by cases hc) (by show ([] : List String).Nodup; exact List.nodup_nil)
    (fun x => by show x ∈ ([] : List String) ↔ False; simp)
    (fun q m => by show cnt m ((lookup? q []).getD []) = 0; rfl)
  have hKsub : ∀ k ∈ keys g, k ∈ keys (g.foldl initStep ([], [])).1 :=
    fun k hk => (hmem0 k).2 (Or.inr (Or.inl hk))
  have hdegkeys : keys (setDegrees g (g.foldl initStep ([], [])).1) =
      keys (g.foldl initStep ([], [])).1 := setDegrees_keys hKsub
  have hdeg_lookup : ∀ x c,
      lookup? x (setDegrees g (g.foldl initStep ([], [])).1) = some c →
      c = ((lookup? x g).getD []).length := by
    intro x c hc
    by_cases hx : x ∈ keys g
    · obtain ⟨ds, hds⟩ := mem_keys_exists hx
      rw [setDegrees_lookup_mem hgnd (mem_of_lookup? hds)] at hc
      cases hc
      rw [hds]
      rfl
    · rw [setDegrees_lookup_not_mem hx] at hc
      rw [lookup?_eq_none_iff.2 hx]
      exact h0 x c hc
  have hadj : ∀ q m, cnt m ((lookup? q (g.foldl initStep ([], [])).2).getD []) =
      cnt q ((lookup? m g).getD []) := by
    intro q m
    rw [hadj0 q m, countA_eq_cnt hgnd]
    omega
  have hdnd : (keys (setDegrees g (g.foldl initStep ([], [])).1)).Nodup := by
    rw [hdegkeys]; exact hnd0
  obtain ⟨c1, c2, c3⟩ := kahnLoop_inv g (g.foldl initStep ([], [])).2
    (keys (setDegrees g (g.foldl initStep ([], [])).1)) hadj
    ((setDegrees g (g.foldl initStep ([], [])).1).length +
      ((g.foldl initStep ([], [])).2.map (fun a => a.2.length)).sum + 1)
    (setDegrees g (g.foldl initStep ([], [])).1)
    (((setDegrees g (g.foldl initStep ([], [])).1).filter
        (fun e => e.2 == 0)).map Prod.fst)
    []
    (fun x hx => mem_keys_exists hx)
    (fun x c hc => lookup?_mem_keys hc)
    (by
      show (([] : List String) ++ _).Nodup
      rw [List.nil_append]
      exact filterZero_nodup hdnd)
    (fun x hx => by cases hx)
    (fun x hx => lookup?_mem_keys ((filterZero_mem hdnd x).1 hx))
    (fun x c hc => by rw [cntNot_nil_length]; exact hdeg_lookup x c hc)
    (fun x hx => by
      rw [← filterZero_mem hdnd x]
      constructor
      · rintro (h1 | h1)
        · cases h1
        · exact h1
      · exact Or.inr)
    (fun x hx => by cases hx)
  simp only [topological_sort] at h
  split_ifs at h with hlen
  · simp only [Except.ok.injEq] at h
    subst h
    rw [initPass_eq_foldl g]
    refine ⟨c1, ?_, c3⟩
    intro x hx
    have hxk := c2 x hx
    rw [hdegkeys] at hxk
    rcases (hmem0 x).1 hxk with h1 | h1 | h1
    · cases h1
    · exact Or.inl h1
    · exact Or.inr h1

/-! ### The breadth-first dependency walk -/

lemma upsert_eq_append_of_not_mem {α : Type} {k : String} (v : α)
    {m : List (String × α)} (h : k ∉ keys m) : upsert k v m = m ++ [(k, v)] := by
  induction m with
  | nil => rfl
  | cons p rest ih =>
    obtain ⟨k', v'⟩ := p
    rw [keys_cons] at h
    have h0 : k' ≠ k := fun hc => h (by rw [hc]; exact List.mem_cons_self _ _)
    simp only [upsert, if_neg h0, List.cons_append]
    rw [ih (fun hc => h (List.mem_cons_of_mem _ hc))]

/-- Invariant-carrying specification of the BFS graph collection. -/
lemma bfsBuild_spec (formulae : List Formula) (installed : List String) :
    ∀ (fuel : Nat) (queue visited : List String)
      (graph g : List (String × List String)),
      bfsBuild formulae installed fuel queue visited graph = Except.ok g →
      (keys graph).Nodup →
      (∀ x, x ∈ keys graph ↔ x ∈ visited) →
      (∀ p ∈ graph, ∃ f, findFormula formulae p.1 = some f ∧
        p.2 = f.dependencies.getD []) →
      (∀ p ∈ graph, ∀ d ∈ p.2, d ∉ installed → (d ∈ visited ∨ d ∈ queue)) →
      (∀ p ∈ graph, p.1 ∉ installed) →
      (keys g).Nodup ∧
      (∀ p ∈ g, ∃ f, findFormula formulae p.1 = some f ∧
        p.2 = f.dependencies.getD []) ∧
      (∀ p ∈ g, ∀ d ∈ p.2, d ∉ installed → d ∈ keys g) ∧
      (∀ p ∈ g, p.1 ∉ installed) := by
  intro fuel
  induction fuel with
  | zero =>
    intro queue visited graph g h
    cases h
  | succ f ih =>
    intro queue visited graph g h hnd hvis hfind hpend hinst
    cases queue with
    | nil =>
      have hg : g = graph := by
        have : bfsBuild formulae installed (f + 1) [] visited graph =
          Except.ok graph := rfl
        rw [this] at h
        cases h
        rfl
      subst hg
      refine ⟨hnd, hfind, ?_, hinst⟩
      intro p hp d hd hdin
      rcases hpend p hp d hd hdin with h1 | h1
      · exact (hvis d).2 h1
      · cases h1
    | cons name rest =>
      by_cases hc : name ∈ visited ∨ name ∈ installed
      · have hred : bfsBuild formulae installed (f + 1) (name :: rest) visited graph =
            bfsBuild formulae installed f rest visited graph := by
          simp only [bfsBuild, if_pos hc]
        rw [hred] at h
        refine ih rest visited graph g h hnd hvis hfind ?_ hinst
        intro p hp d hd hdin
        rcases hpend p hp d hd hdin with h1 | h1
        · exact Or.inl h1
        · rcases List.mem_cons.1 h1 with h2 | h2
          · subst h2
            rcases hc with h3 | h3
            · exact Or.inl h3
            · exact absurd h3 hdin
          · exact Or.inr h2
      · push_neg at hc
        have hcor : ¬ (name ∈ visited ∨ name ∈ installed) :=
          fun hor => hor.elim hc.1 hc.2
        cases hf : findFormula formulae name with
        | none =>
          have hred : bfsBuild formulae installed (f + 1) (name :: rest) visited graph =
              Except.error (WaxError.FormulaNotFound name) := by
            simp only [bfsBuild, if_neg hcor, hf]
          rw [hred] at h
          cases h
        | some fform =>
          have hred : bfsBuild formulae installed (f + 1) (name :: rest) visited graph =
              bfsBuild formulae installed f
                (rest ++ (fform.dependencies.getD []).filter (fun d => decide (d ∉ installed)))
                (name :: visited)
                (upsert name (fform.dependencies.getD []) graph) := by
            simp only [bfsBuild, if_neg hcor, hf]
          rw [hred] at h
          have hnk : name ∉ keys graph := fun h1 => hc.1 ((hvis name).1 h1)
          have hupe : upsert name (fform.dependencies.getD []) graph =
              graph ++ [(name, fform.dependencies.getD [])] :=
            upsert_eq_append_of_not_mem _ hnk
          have hknew : keys (upsert name (fform.dependencies.getD []) graph) =
              keys graph ++ [name] :=
            upsert_keys_of_not_mem _ hnk
          refine ih _ _ _ g h ?_ ?_ ?_ ?_ ?_
          · rw [hknew, List.nodup_append]
            refine ⟨hnd, List.nodup_singleton name, ?_⟩
            intro a ha hcm
            rcases List.mem_cons.1 hcm with h2 | h2
            · rw [h2] at ha; exact hnk ha
            · cases h2
          · intro x
            rw [hknew, List.mem_append]
            constructor
            · rintro (h1 | h1)
              · exact List.mem_cons_of_mem _ ((hvis x).1 h1)
              · rcases List.mem_cons.1 h1 with h2 | h2
                · rw [h2]; exact List.mem_cons_self _ _
                · cases h2
            · intro h1
              rcases List.mem_cons.1 h1 with h2 | h2
              · rw [h2]; exact Or.inr (List.mem_cons_self _ _)
              · exact Or.inl ((hvis x).2 h2)
          · intro p hp
            rw [hupe] at hp
            rcases List.mem_append.1 hp with h1 | h1
            · exact hfind p h1
            · rcases List.mem_cons.1 h1 with h2 | h2
              · subst h2
                exact ⟨fform, hf, rfl⟩
              · cases h2
          · intro p hp d hd hdin
            rw [hupe] at hp
            rcases List.mem_append.1 hp with h1 | h1
            · rcases hpend p h1 d hd hdin with h2 | h2
              · exact Or.inl (List.mem_cons_of_mem _ h2)
              · rcases List.mem_cons.1 h2 with h3 | h3
                · subst h3
                  exact Or.inl (List.mem_cons_self _ _)
                · exact Or.inr (List.mem_append_left _ h3)
            · rcases List.mem_cons.1 h1 with h2 | h2
              · subst h2
                refine Or.inr (List.mem_append_right _ ?_)
                rw [List.mem_filter]
                exact ⟨hd, by rw [decide_eq_true_eq]; exact hdin⟩
              · cases h2
          · intro p hp
            rw [hupe] at hp
            rcases List.mem_append.1 hp with h1 | h1
            · exact hinst p h1
            · rcases List.mem_cons.1 h1 with h2 | h2
              · subst h2
                exact hc.2
              · cases h2

/-- Relative order survives filtering (in a duplicate-free list). -/
lemma idxOf_filter_lt (p : String → Bool) :
    ∀ (res : List String), res.Nodup →
      ∀ x y, x ∈ res.filter p → y ∈ res.filter p →
        idxOf y res < idxOf x res → idxOf y (res.filter p) < idxOf x (res.filter p) := by
  intro res
  induction res with
  | nil => intro _ x y hx _ _; cases hx
  | cons a rest ih =>
    intro hnd x y hx hy hlt
    have hna : a ∉ rest := (List.nodup_cons.1 hnd).1
    have hndr : rest.Nodup := (List.nodup_cons.1 hnd).2
    by_cases hpa : p a
    · rw [List.filter_cons_of_pos hpa] at hx hy ⊢
      by_cases hya : a = y
      · have hxa : ¬ a = x := by
          intro hax
          rw [show idxOf y (a :: rest) = 0 from by
              show (if a = y then 0 else idxOf y rest + 1) = 0
              rw [if_pos hya],
            show idxOf x (a :: rest) = 0 from by
              show (if a = x then 0 else idxOf x rest + 1) = 0
              rw [if_pos hax]] at hlt
          omega
        show idxOf y (a :: rest.filter p) < idxOf x (a :: rest.filter p)
        rw [show idxOf y (a :: rest.filter p) = 0 from by
            show (if a = y then 0 else idxOf y (rest.filter p) + 1) = 0
            rw [if_pos hya],
          show idxOf x (a :: rest.filter p) = idxOf x (rest.filter p) + 1 from by
            show (if a = x then 0 else idxOf x (rest.filter p) + 1) = _
            rw [if_neg hxa]]
        omega
      · by_cases hxa : a = x
        · rw [show idxOf x (a :: rest) = 0 from by
              show (if a = x then 0 else idxOf x rest + 1) = 0
              rw [if_pos hxa]] at hlt
          omega
        · have hxm : x ∈ rest.filter p := by
            rcases List.mem_cons.1 hx with h1 | h1
            · exact absurd h1.symm hxa
            · exact h1
          have hym : y ∈ rest.filter p := by
            rcases List.mem_cons.1 hy with h1 | h1
            · exact absurd h1.symm hya
            · exact h1
          have hlt2 : idxOf y rest < idxOf x rest := by
            rw [show idxOf y (a :: rest) = idxOf y rest + 1 from by
                show (if a = y then 0 else idxOf y rest + 1) = _
                rw [if_neg hya],
              show idxOf x (a :: rest) = idxOf x rest + 1 from by
                show (if a = x then 0 else idxOf x rest + 1) = _
                rw [if_neg hxa]] at hlt
            omega
          have := ih hndr x y hxm hym hlt2
          rw [show idxOf y (a :: rest.filter p) = idxOf y (rest.filter p) + 1 from by
              show (if a = y then 0 else idxOf y (rest.filter p) + 1) = _
              rw [if_neg hya],
            show idxOf x (a :: rest.filter p) = idxOf x (rest.filter p) + 1 from by
              show (if a = x then 0 else idxOf x (rest.filter p) + 1) = _
              rw [if_neg hxa]]
          omega
    · rw [List.filter_cons_of_neg hpa] at hx hy ⊢
      have hxa : ¬ a = x := by
        intro hax
        rw [← hax] at hx
        exact hna (List.mem_of_mem_filter hx)
      have hya : ¬ a = y := by
        intro hay
        rw [← hay] at hy
        exact hna (List.mem_of_mem_filter hy)
      have hlt2 : idxOf y rest < idxOf x rest := by
        rw [show idxOf y (a :: rest) = idxOf y rest + 1 from by
            show (if a = y then 0 else idxOf y rest + 1) = _
            rw [if_neg hya],
          show idxOf x (a :: rest) = idxOf x rest + 1 from by
            show (if a = x then 0 else idxOf x rest + 1) = _
            rw [if_neg hxa]] at hlt
        omega
      exact ih hndr x y hx hy hlt2

/-- A minimal catalog entry for the resolver examples: a name and its
runtime dependency list, every other field inert. -/
def mkFormula (n : String) (ds : List String) : Formula :=
  ⟨n, n, "1.0", some ds, none, none⟩

/-- A three-formula chain `a → b → c` where `a` also depends on the
already-installed `z`. -/
def s1cat : List Formula :=
  [mkFormula "a" ["b", "z"], mkFormula "b" ["c"], mkFormula "c" []]

/-- C2: on every successful run, `resolve_dependencies` returns a list
with no duplicate name, no already-installed name, and in which every
emitted runtime dependency of an emitted name comes strictly before its
dependent (topological consistency with the catalog's dependency
edges). -/
theorem C2_resolver_output (formula : Formula) (formulae : List Formula)
    (installed : List String) (l : List String)
    (h : resolve_dependencies formula formulae installed = Except.ok l) :
    l.Nodup ∧ (∀ x ∈ l, x ∉ installed) ∧
    (∀ x ∈ l, ∀ y ∈ runtimeDeps formulae x, y ∉ installed →
      y ∈ l ∧ idxOf y l < idxOf x l) := by
  simp only [resolve_dependencies] at h
  split at h
  · cases h
  · rename_i graph hbfs
    split at h
    · cases h
    · rename_i sorted hts
      have hlf : sorted.filter (fun n => decide (n ∉ installed)) = l := Except.ok.inj h
      subst hlf
      obtain ⟨gnd, gfind, gdeps, ginst⟩ :=
        bfsBuild_spec formulae installed (bfsFuel formulae) [formula.name] [] [] graph
          hbfs List.nodup_nil (fun _ => Iff.rfl)
          (fun p hp => absurd hp (List.not_mem_nil p))
          (fun p hp => absurd hp (List.not_mem_nil p))
          (fun p hp => absurd hp (List.not_mem_nil p))
      obtain ⟨snd, smem, sclosed⟩ := topological_sort_spec gnd hts
      refine ⟨snd.filter _, ?_, ?_⟩
      · intro x hx
        exact of_decide_eq_true (List.mem_filter.1 hx).2
      · intro x hx y hy hyni
        have hxs : x ∈ sorted := (List.mem_filter.1 hx).1
        have hxni : x ∉ installed := of_decide_eq_true (List.mem_filter.1 hx).2
        have hxk : x ∈ keys graph := by
          rcases smem x hxs with hk | ⟨p, hp, hxp⟩
          · exact hk
          · exact gdeps p hp x hxp hxni
        obtain ⟨ds, hds⟩ := mem_keys_exists hxk
        obtain ⟨f, hf, hdeq⟩ := gfind (x, ds) (mem_of_lookup? hds)
        have hf2 : findFormula formulae x = some f := hf
        have hdeq2 : ds = f.dependencies.getD [] := hdeq
        have hrt : runtimeDeps formulae x = ds := by
          unfold runtimeDeps
          rw [hf2, hdeq2]
          rfl
        rw [hrt] at hy
        have hyds : y ∈ (lookup? x graph).getD [] := by
          rw [hds]
          exact hy
        obtain ⟨hysort, hylt⟩ := sclosed x hxs y hyds
        have hyf : y ∈ sorted.filter (fun n => decide (n ∉ installed)) :=
          List.mem_filter.2 ⟨hysort, decide_eq_true hyni⟩
        exact ⟨hyf, idxOf_filter_lt _ sorted snd x y hx hyf hylt⟩

/-- C2, instantiated: resolving `a` over the chain catalog with `z`
pre-installed emits `[c, b, a]`, which is duplicate-free, avoids `z`,
and orders each dependency before its dependent. -/
theorem C2_witness :
    (["c", "b", "a"] : List String).Nodup ∧
    (∀ x ∈ (["c", "b", "a"] : List String), x ∉ (["z"] : List String)) ∧
    (∀ x ∈ (["c", "b", "a"] : List String), ∀ y ∈ runtimeDeps s1cat x,
      y ∉ (["z"] : List String) →
      y ∈ (["c", "b", "a"] : List String) ∧
      idxOf y ["c", "b", "a"] < idxOf x ["c", "b", "a"]) :=
  C2_resolver_output (mkFormula "a" ["b", "z"]) s1cat ["z"] ["c", "b", "a"] (by rfl)

/-! ### Install engine (`install.rs`, `commands/install.rs`) -/

/-- `InstallMode` from `install.rs`. -/
inductive InstallMode where
  | User
  | Global
deriving DecidableEq, Repr

/-- `InstalledPackage` from `install.rs`. -/
structure InstalledPackage where
  name : String
  version : String
  platform : String
  install_date : Int
  install_mode : InstallMode
  from_source : Bool
deriving DecidableEq, Repr

/-- The effectful steps the bottle-install pipeline performs, as trace
events: downloading a bottle, verifying its checksum, extracting it,
creating the Cellar directory, copying the payload, creating symlinks,
running the relocator over a copied subtree, and recording the state
entry.  `Relocate` is the event `BottleDownloader::relocate_bottle`
would emit; it exists so that its absence from a trace is statable. -/
inductive InstallEvent where
  | Download (url : String)
  | VerifyChecksum (sha256 : String)
  | Extract (name : String)
  | CreateDirAll (name version : String)
  | CopyDir (name version : String)
  | CreateSymlinks (name version : String)
  | Relocate (name version : String)
  | StateAdd (pkg : InstalledPackage)
deriving DecidableEq, Repr

/-- The per-package bottle path of `install` (`commands/install.rs`
lines 306–433): bottle selection
(`files.get(&platform).or_else(|| files.get("all"))` with its two
`BottleNotAvailable` errors), the spawned download/verify/extract task,
then the sequential create-dir/copy/symlink/record loop body.  The
result is the event trace plus the `InstalledPackage` the run records;
the code between extraction and `state.add` calls only `copy_dir_all`
and `create_symlinks`, never `relocate_bottle`, so no `Relocate` event
appears. -/
def installBottle (pkg : Formula) (platform : String) (mode : InstallMode)
    (now : Int) : Except WaxError (List InstallEvent × InstalledPackage) :=
  match pkg.bottle.bind (fun b => b.stable) with
  | none =>
    Except.error (WaxError.BottleNotAvailable (pkg.name ++ " (no bottle info)"))
  | some s =>
    let chosen := match lookup? platform s.files with
      | some bf => some bf
      | none => lookup? "all" s.files
    match chosen with
    | none =>
      Except.error
        (WaxError.BottleNotAvailable (pkg.name ++ " for platform " ++ platform))
    | some bf =>
      let entry : InstalledPackage :=
        ⟨pkg.name, pkg.versions_stable, platform, now, mode, false⟩
      Except.ok
        ([InstallEvent.Download bf.url,
          InstallEvent.VerifyChecksum bf.sha256,
          InstallEvent.Extract pkg.name,
          InstallEvent.CreateDirAll pkg.name pkg.versions_stable,
          InstallEvent.CopyDir pkg.name pkg.versions_stable,
          InstallEvent.CreateSymlinks pkg.name pkg.versions_stable,
          InstallEvent.StateAdd entry],
         entry)

/-! ### Catalog cache update (`commands/update.rs`, `api.rs`, `cache.rs`) -/

/-- `CacheMetadata` from `cache.rs`. -/
structure CacheMetadata where
  last_updated : Int
  formula_count : Nat
  cask_count : Nat
  formulae_etag : Option String
  formulae_last_modified : Option String
  casks_etag : Option String
  casks_last_modified : Option String
deriving DecidableEq, Repr

/-- `FetchResult` from `api.rs`; a catalog body is a list of records
(each `String` stands for one serialized entry, so a count is a
length). -/
structure FetchResult where
  data : Option (List String)
  etag : Option String
  last_modified : Option String
  not_modified : Bool
deriving DecidableEq, Repr

/-- What `fetch_formulae_conditional` and `fetch_casks_conditional`
return on a `304 Not Modified`: no data and no validators. -/
def notModifiedFetch : FetchResult := ⟨none, none, none, true⟩

/-- The on-disk cache: both catalog bodies and the metadata file. -/
structure CacheState where
  formulae : List String
  casks : List String
  metadata : Option CacheMetadata
deriving DecidableEq, Repr

/-- The body/count selection of `update` for one catalog: on 304 reload
the cached body, on a 2xx with data save and use the fetched body, else
fall back to the cached body. -/
def chooseBody (cached : List String) (fetch : FetchResult) :
    List String × Nat :=
  if fetch.not_modified then (cached, cached.length)
  else
    match fetch.data with
    | some d => (d, d.length)
    | none => (cached, cached.length)

/-- `fetch.etag.or_else(|| old)`: keep the fetched validator when the
response carried one, else retain the stored one. -/
def orKeep (new old : Option String) : Option String :=
  match new with
  | some v => some v
  | none => old

/-- `update` from `commands/update.rs`: choose each catalog's body,
then write fresh metadata with `last_updated = now`, recomputed counts,
and validators taken from the fetch with fallback to the previous
metadata. -/
def updateCache (st : CacheState) (ff cf : FetchResult) (now : Int) :
    CacheState :=
  let fRes := chooseBody st.formulae ff
  let cRes := chooseBody st.casks cf
  ⟨fRes.1, cRes.1,
    some
      ⟨now, fRes.2, cRes.2,
        orKeep ff.etag (st.metadata.bind (fun m => m.formulae_etag)),
        orKeep ff.last_modified
          (st.metadata.bind (fun m => m.formulae_last_modified)),
        orKeep cf.etag (st.metadata.bind (fun m => m.casks_etag)),
        orKeep cf.last_modified
          (st.metadata.bind (fun m => m.casks_last_modified))⟩⟩

/-- C1: on every successful bottle install the pipeline copies the
payload, records the state entry and completes — but it never emits a
`Relocate` event: `relocate_bottle` is dead code, the installer finishes
without running the Relocator over the copied subtree. -/
theorem C1_no_relocation_in_install (pkg : Formula) (platform : String)
    (mode : InstallMode) (now : Int) (events : List InstallEvent)
    (entry : InstalledPackage)
    (h : installBottle pkg platform mode now = Except.ok (events, entry)) :
    InstallEvent.CopyDir pkg.name pkg.versions_stable ∈ events ∧
    InstallEvent.StateAdd entry ∈ events ∧
    ∀ n v, InstallEvent.Relocate n v ∉ events := by
  simp only [installBottle] at h
  split at h
  · cases h
  · split at h
    · cases h
    · rw [Except.ok.injEq, Prod.mk.injEq] at h
      obtain ⟨h1, h2⟩ := h
      subst h1
      subst h2
      refine ⟨by simp, by simp, ?_⟩
      intro n v hmem
      simp at hmem

def c1file : BottleFile := ⟨"https://example.com/a-1.0.tar.gz", "deadbeef"⟩

def c1pkg : Formula :=
  ⟨"a", "a", "1.0", none, none, some ⟨some ⟨[("arm64_sonoma", c1file)]⟩⟩⟩

def c1entry : InstalledPackage :=
  ⟨"a", "1.0", "arm64_sonoma", 0, InstallMode.Global, false⟩

def c1events : List InstallEvent :=
  [InstallEvent.Download "https://example.com/a-1.0.tar.gz",
   InstallEvent.VerifyChecksum "deadbeef",
   InstallEvent.Extract "a",
   InstallEvent.CreateDirAll "a" "1.0",
   InstallEvent.CopyDir "a" "1.0",
   InstallEvent.CreateSymlinks "a" "1.0",
   InstallEvent.StateAdd c1entry]

/-- C1, instantiated: installing the concrete bottle `a@1.0` copies the
payload and records the entry, and its trace holds no `Relocate`
event. -/
theorem C1_witness :
    InstallEvent.CopyDir c1pkg.name c1pkg.versions_stable ∈ c1events ∧
    InstallEvent.StateAdd c1entry ∈ c1events ∧
    ∀ n v, InstallEvent.Relocate n v ∉ c1events :=
  C1_no_relocation_in_install c1pkg "arm64_sonoma" InstallMode.Global 0
    c1events c1entry (by rfl)

/-- C4 (amended): when the detected platform tag is absent from the
bottle manifest but `"all"` is present with `{url, sha256}`, install
downloads that url, verifies that sha256, unpacks and records a state
entry — whose `platform` field is the detected tag passed in, not
`"all"`. -/
theorem C4_all_fallback_platform_field (pkg : Formula) (s : BottleStable)
    (platform : String) (mode : InstallMode) (now : Int) (bf : BottleFile)
    (hb : pkg.bottle = some ⟨some s⟩)
    (hplat : lookup? platform s.files = none)
    (hall : lookup? "all" s.files = some bf) :
    installBottle pkg platform mode now =
      Except.ok
        ([InstallEvent.Download bf.url,
          InstallEvent.VerifyChecksum bf.sha256,
          InstallEvent.Extract pkg.name,
          InstallEvent.CreateDirAll pkg.name pkg.versions_stable,
          InstallEvent.CopyDir pkg.name pkg.versions_stable,
          InstallEvent.CreateSymlinks pkg.name pkg.versions_stable,
          InstallEvent.StateAdd
            ⟨pkg.name, pkg.versions_stable, platform, now, mode, false⟩],
         ⟨pkg.name, pkg.versions_stable, platform, now, mode, false⟩) := by
  simp [installBottle, hb, hplat, hall]

def c4file : BottleFile := ⟨"https://example.com/x-1.0.all.tar.gz", "cafef00d"⟩

def c4pkg : Formula :=
  ⟨"x", "x", "1.0", none, none, some ⟨some ⟨[("all", c4file)]⟩⟩⟩

def c4entry : InstalledPackage :=
  ⟨"x", "1.0", "arm64_linux", 7, InstallMode.Global, false⟩

/-- C4 counterexample: with only an `"all"` bottle and detected platform
`arm64_linux`, the recorded state entry's `platform` field is
`"arm64_linux"`, not the `"all"` the claim states. -/
theorem C4_counterexample :
    installBottle c4pkg "arm64_linux" InstallMode.Global 7 =
      Except.ok
        ([InstallEvent.Download "https://example.com/x-1.0.all.tar.gz",
          InstallEvent.VerifyChecksum "cafef00d",
          InstallEvent.Extract "x",
          InstallEvent.CreateDirAll "x" "1.0",
          InstallEvent.CopyDir "x" "1.0",
          InstallEvent.CreateSymlinks "x" "1.0",
          InstallEvent.StateAdd c4entry],
         c4entry) ∧
    c4entry.platform ≠ "all" := ⟨rfl, by decide⟩

/-- C4, instantiated: the `"all"` fallback on the concrete one-entry
manifest downloads its url, verifies its sha256 and records the
detected-platform entry. -/
theorem C4_witness :
    installBottle c4pkg "arm64_linux" InstallMode.Global 7 =
      Except.ok
        ([InstallEvent.Download c4file.url,
          InstallEvent.VerifyChecksum c4file.sha256,
          InstallEvent.Extract "x",
          InstallEvent.CreateDirAll "x" "1.0",
          InstallEvent.CopyDir "x" "1.0",
          InstallEvent.CreateSymlinks "x" "1.0",
          InstallEvent.StateAdd c4entry],
         c4entry) :=
  C4_all_fallback_platform_field c4pkg ⟨[("all", c4file)]⟩ "arm64_linux"
    InstallMode.Global 7 c4file rfl rfl rfl

/-- C5 (amended): a run of `update` answered 304 on both catalogs keeps
the bodies and all stored validators and advances only `last_updated`
(counts are recomputed from the unchanged bodies, so they stay equal to
consistent stored counts); a run completed via 2xx responses stores each
validator from the response's header when the header is present and
retains the previous value when it is absent. -/
theorem C5_update_validator_metadata (st : CacheState) (m : CacheMetadata)
    (now : Int) (ff cf : FetchResult) (fd cd : List String)
    (hm : st.metadata = some m)
    (hfc : m.formula_count = st.formulae.length)
    (hcc : m.cask_count = st.casks.length)
    (hff : ff.not_modified = false) (hcf : cf.not_modified = false)
    (hfd : ff.data = some fd) (hcd : cf.data = some cd) :
    updateCache st notModifiedFetch notModifiedFetch now =
      ⟨st.formulae, st.casks,
        some ⟨now, m.formula_count, m.cask_count, m.formulae_etag,
          m.formulae_last_modified, m.casks_etag, m.casks_last_modified⟩⟩ ∧
    updateCache st ff cf now =
      ⟨fd, cd,
        some ⟨now, fd.length, cd.length,
          orKeep ff.etag m.formulae_etag,
          orKeep ff.last_modified m.formulae_last_modified,
          orKeep cf.etag m.casks_etag,
          orKeep cf.last_modified m.casks_last_modified⟩⟩ := by
  constructor
  · simp [updateCache, chooseBody, notModifiedFetch, orKeep, hm, hfc, hcc]
  · simp [updateCache, chooseBody, hm, hff, hcf, hfd, hcd]

def c5meta : CacheMetadata :=
  ⟨0, 1, 0, some "etag-old", some "lm-old", none, none⟩

def c5st : CacheState := ⟨["f1"], [], some c5meta⟩

def c5fetch : FetchResult := ⟨some ["f1", "f2"], none, none, false⟩

def c5cfetch : FetchResult := ⟨some [], none, none, false⟩

/-- C5 counterexample: an update completed via a 2xx response that
carries no ETag header leaves the stored etag equal to the old value,
not to the response's (absent) header. -/
theorem C5_counterexample :
    (updateCache c5st c5fetch c5cfetch 9).metadata =
      some ⟨9, 2, 0, some "etag-old", some "lm-old", none, none⟩ ∧
    c5fetch.etag = none ∧
    (some "etag-old" : Option String) ≠ none := ⟨rfl, rfl, by decide⟩

/-- C5, instantiated: the double-304 run on the concrete cache bumps
only `last_updated`, and a concrete headerless 2xx run retains the old
validators. -/
theorem C5_witness :
    updateCache c5st notModifiedFetch notModifiedFetch 9 =
      ⟨["f1"], [], some ⟨9, 1, 0, some "etag-old", some "lm-old", none, none⟩⟩ ∧
    updateCache c5st c5fetch c5cfetch 9 =
      ⟨["f1", "f2"], [],
        some ⟨9, 2, 0, some "etag-old", some "lm-old", none, none⟩⟩ :=
  C5_update_validator_metadata c5st c5meta 9 c5fetch c5cfetch ["f1", "f2"] []
    rfl rfl rfl rfl rfl rfl rfl

/-! ### Lockfile and sync (`lockfile.rs`, `commands/sync.rs`) -/

/-- `LockfilePackage` from `lockfile.rs`. -/
structure LockfilePackage where
  version : String
  bottle : String
deriving DecidableEq, Repr

/-- `Lockfile::generate`: project every installed package to
`{version, bottle = platform}`, keyed by name. -/
def generate (st : List (String × InstalledPackage)) :
    List (String × LockfilePackage) :=
  st.map (fun e => (e.1, ⟨e.2.version, e.2.platform⟩))

/-- The `needs_install` decision of `sync`: a lockfile entry needs
installing when no package of that name is installed, or the installed
version or platform differs from the locked one. -/
def needsInstall (installed : List (String × InstalledPackage))
    (name : String) (lp : LockfilePackage) : Bool :=
  match lookup? name installed with
  | some ip => ip.version != lp.version || ip.platform != lp.bottle
  | none => true

/-- The download loop of `sync`: per entry, find the formula, check the
catalog version against the locked one, select the bottle under the
locked platform tag with `"all"` fallback, then download, verify and
extract.  Returns the fetch events and the extracted
(name, version, platform) triples. -/
def syncFetch (formulae : List Formula) :
    List (String × LockfilePackage) →
    Except WaxError (List InstallEvent × List (String × String × String))
  | [] => Except.ok ([], [])
  | (name, lp) :: rest =>
    match findFormula formulae name with
    | none => Except.error (WaxError.FormulaNotFound name)
    | some f =>
      if f.versions_stable != lp.version then
        Except.error (WaxError.LockfileError (name ++ " version mismatch"))
      else
        match f.bottle.bind (fun b => b.stable) with
        | none =>
          Except.error
            (WaxError.BottleNotAvailable (name ++ " (no bottle info)"))
        | some s =>
          let chosen := match lookup? lp.bottle s.files with
            | some bf => some bf
            | none => lookup? "all" s.files
          match chosen with
          | none =>
            Except.error
              (WaxError.BottleNotAvailable
                (name ++ " for platform " ++ lp.bottle))
          | some bf =>
            match syncFetch formulae rest with
            | Except.error e => Except.error e
            | Except.ok r =>
              Except.ok
                ([InstallEvent.Download bf.url,
                  InstallEvent.VerifyChecksum bf.sha256,
                  InstallEvent.Extract name] ++ r.1,
                 (name, lp.version, lp.bottle) :: r.2)

/-- The install loop of `sync` over the extracted packages: create the
Cellar directory, copy the payload, create symlinks and record the
state entry (platform taken from the lockfile entry). -/
def syncInstallPhase (mode : InstallMode) (now : Int) :
    List (String × String × String) → List InstallEvent
  | [] => []
  | (name, version, platform) :: rest =>
    [InstallEvent.CreateDirAll name version,
     InstallEvent.CopyDir name version,
     InstallEvent.CreateSymlinks name version,
     InstallEvent.StateAdd ⟨name, version, platform, now, mode, false⟩] ++
    syncInstallPhase mode now rest

/-- `sync` from `commands/sync.rs`: empty lockfile is a no-op; entries
whose installed version and platform match the lock are recognized as
synced, and when nothing needs installing the run returns before any
download; otherwise the fetch loop and the install loop run. -/
def sync (lock : List (String × LockfilePackage))
    (installed : List (String × InstalledPackage))
    (formulae : List Formula) (mode : InstallMode) (now : Int) :
    Except WaxError (List InstallEvent) :=
  if lock.length = 0 then Except.ok []
  else
    let toInstall := lock.filter (fun e => needsInstall installed e.1 e.2)
    if toInstall.length = 0 then Except.ok []
    else
      match syncFetch formulae toInstall with
      | Except.error e => Except.error e
      | Except.ok r => Except.ok (r.1 ++ syncInstallPhase mode now r.2)

/-- C7: generating the lockfile from the current install state and then
syncing against it is a no-op — every lockfile entry is recognized as
already installed (version and platform match), and the sync returns
successfully with an empty event trace: nothing is downloaded or
installed. -/
theorem C7_lock_then_sync_noop (st : List (String × InstalledPackage))
    (formulae : List Formula) (mode : InstallMode) (now : Int)
    (hnd : (keys st).Nodup) :
    (∀ e ∈ generate st, needsInstall st e.1 e.2 = false) ∧
    sync (generate st) st formulae mode now = Except.ok [] := by
  have hni : ∀ e ∈ generate st, needsInstall st e.1 e.2 = false := by
    intro e he
    obtain ⟨⟨n, p⟩, hmem, heq⟩ := List.mem_map.1 he
    cases heq
    have hl : lookup? n st = some p := lookup?_of_mem_of_nodup hnd hmem
    simp [needsInstall, hl]
  refine ⟨hni, ?_⟩
  unfold sync
  by_cases h0 : (generate st).length = 0
  · rw [if_pos h0]
  · rw [if_neg h0]
    have hfilt : (generate st).filter (fun e => needsInstall st e.1 e.2) = [] :=
      List.filter_eq_nil_iff.2 (fun e he => by rw [hni e he]; simp)
    simp [hfilt]

def c7pkgA : InstalledPackage :=
  ⟨"a", "1.0", "arm64_sonoma", 1, InstallMode.Global, false⟩

def c7pkgB : InstalledPackage :=
  ⟨"b", "2.0", "all", 2, InstallMode.User, true⟩

def c7st : List (String × InstalledPackage) := [("a", c7pkgA), ("b", c7pkgB)]

/-- C7, instantiated: locking a two-package install state and syncing
against it recognizes both entries as synced and performs nothing. -/
theorem C7_witness :
    (∀ e ∈ generate c7st, needsInstall c7st e.1 e.2 = false) ∧
    sync (generate c7st) c7st [] InstallMode.Global 3 = Except.ok [] :=
  C7_lock_then_sync_noop c7st [] InstallMode.Global 3 (by decide)

/-! ### Symlink creation and removal (`install.rs` lines 266–400)

Paths are component lists: the install prefix and the cellar path count
as one component each, so `<prefix>/bin/tool` is `[pfx, "bin", "tool"]`.
The filesystem is the set of directories, regular files and symlinks
(path ↦ link target); `Path::exists` follows symlinks, so a recorded
link models a symlink whose target exists. -/

abbrev Path := List String

structure Fs where
  dirs : List Path
  files : List Path
  links : List (Path × Path)
deriving DecidableEq, Repr

def pkeys (l : List (Path × Path)) : List Path := l.map Prod.fst

def plookup? (k : Path) : List (Path × Path) → Option Path
  | [] => none
  | (k', v) :: rest => if k' = k then some v else plookup? k rest

/-- `target_path.exists()`. -/
def fsExists (fs : Fs) (p : Path) : Bool :=
  decide (p ∈ fs.dirs ∨ p ∈ fs.files ∨ p ∈ pkeys fs.links)

/-- `fs::create_dir_all(&target_dir)`. -/
def addDir (p : Path) (fs : Fs) : Fs :=
  ⟨if p ∈ fs.dirs then fs.dirs else fs.dirs ++ [p], fs.files, fs.links⟩

/-- `fs::remove_file(&target_path)` on a symlink. -/
def removeLink (p : Path) (links : List (Path × Path)) :
    List (Path × Path) :=
  links.filter (fun e => decide ¬ e.1 = p)

/-- The six linked subdirectories of `create_symlinks` and
`remove_symlinks`. -/
def linkSubdirs : List String := ["bin", "lib", "include", "share", "etc", "sbin"]

/-- The `while let Some(entry) = entries.next_entry()` loop of
`create_symlinks`: skip targets that exist, else (unless dry-run)
create the symlink, and record the target path either way. -/
def linkFiles (fp : Path) (pfx subdir : String) (dry_run : Bool) :
    List String → Fs → List Path → Fs × List Path
  | [], fs, created => (fs, created)
  | fname :: rest, fs, created =>
    let target_path : Path := [pfx, subdir, fname]
    if fsExists fs target_path then
      linkFiles fp pfx subdir dry_run rest fs created
    else
      let fs2 := if dry_run then fs
        else ⟨fs.dirs, fs.files, fs.links ++ [(target_path, fp ++ [subdir, fname])]⟩
      linkFiles fp pfx subdir dry_run rest fs2 (created ++ [target_path])

/-- The `for (subdir, target_dir) in link_dirs` loop of
`create_symlinks`; `content` is the on-disk listing of
`formula_path/<subdir>` (`none` = the source dir does not exist). -/
def linkDirLoop (fp : Path) (pfx : String)
    (content : List (String × List String)) (dry_run : Bool) :
    List String → Fs → List Path → Fs × List Path
  | [], fs, created => (fs, created)
  | subdir :: rest, fs, created =>
    match lookup? subdir content with
    | none => linkDirLoop fp pfx content dry_run rest fs created
    | some entries =>
      let fs1 := if dry_run then fs else addDir [pfx, subdir] fs
      let r := linkFiles fp pfx subdir dry_run entries fs1 created
      linkDirLoop fp pfx content dry_run rest r.1 r.2

/-- `create_symlinks` from `install.rs`. -/
def create_symlinks (formula_name version cellar pfx : String)
    (content : List (String × List String)) (dry_run : Bool) (fs : Fs) :
    Fs × List Path :=
  linkDirLoop [cellar, formula_name, version] pfx content dry_run
    linkSubdirs fs []

/-- The per-entry loop of `remove_symlinks`: existing target paths that
are symlinks pointing under the formula path are removed (unless
dry-run) and recorded. -/
def removeFiles (fp : Path) (pfx subdir : String) (dry_run : Bool) :
    List String → Fs → List Path → Fs × List Path
  | [], fs, removed => (fs, removed)
  | fname :: rest, fs, removed =>
    let target_path : Path := [pfx, subdir, fname]
    if fsExists fs target_path then
      match plookup? target_path fs.links with
      | some link_target =>
        if fp.isPrefixOf link_target then
          let fs2 := if dry_run then fs
            else ⟨fs.dirs, fs.files, removeLink target_path fs.links⟩
          removeFiles fp pfx subdir dry_run rest fs2 (removed ++ [target_path])
        else removeFiles fp pfx subdir dry_run rest fs removed
      | none => removeFiles fp pfx subdir dry_run rest fs removed
    else removeFiles fp pfx subdir dry_run rest fs removed

/-- The subdir loop of `remove_symlinks`. -/
def removeDirLoop (fp : Path) (pfx : String)
    (content : List (String × List String)) (dry_run : Bool) :
    List String → Fs → List Path → Fs × List Path
  | [], fs, removed => (fs, removed)
  | subdir :: rest, fs, removed =>
    match lookup? subdir content with
    | none => removeDirLoop fp pfx content dry_run rest fs removed
    | some entries =>
      let r := removeFiles fp pfx subdir dry_run entries fs removed
      removeDirLoop fp pfx content dry_run rest r.1 r.2

/-- `remove_symlinks` from `install.rs`. -/
def remove_symlinks (formula_name version cellar pfx : String)
    (content : List (String × List String)) (dry_run : Bool) (fs : Fs) :
    Fs × List Path :=
  removeDirLoop [cellar, formula_name, version] pfx content dry_run
    linkSubdirs fs []

lemma pkeys_append (a b : List (Path × Path)) :
    pkeys (a ++ b) = pkeys a ++ pkeys b :=
  List.map_append _ a b

lemma plookup?_append_left {k t : Path} {a : List (Path × Path)}
    (b : List (Path × Path)) (h : plookup? k a = some t) :
    plookup? k (a ++ b) = some t := by
  induction a with
  | nil => cases h
  | cons e rest ih =>
    obtain ⟨k', v⟩ := e
    by_cases hk : k' = k
    · simp only [plookup?, if_pos hk] at h
      simp only [List.cons_append, plookup?, if_pos hk]
      exact h
    · simp only [plookup?, if_neg hk] at h
      simp only [List.cons_append, plookup?, if_neg hk]
      exact ih h

/-- A path that does not exist in an extended filesystem did not exist
in the smaller one either. -/
lemma fsExists_false_extension (fs' fs : Fs) (D : List Path)
    (L : List (Path × Path)) (p : Path)
    (hd : fs'.dirs = fs.dirs ++ D) (hf : fs'.files = fs.files)
    (hl : fs'.links = fs.links ++ L)
    (h : fsExists fs' p = false) : fsExists fs p = false := by
  cases ht : fsExists fs p with
  | false => rfl
  | true =>
    exfalso
    have hm := of_decide_eq_true ht
    have h2 : fsExists fs' p = true := by
      apply decide_eq_true
      rcases hm with h1 | h1 | h1
      · exact Or.inl (by rw [hd]; exact List.mem_append_left _ h1)
      · exact Or.inr (Or.inl (by rw [hf]; exact h1))
      · refine Or.inr (Or.inr ?_)
        show p ∈ pkeys fs'.links
        rw [hl, pkeys_append]
        exact List.mem_append_left _ h1
    rw [h] at h2
    cases h2

lemma addDir_dirs (d : Path) (fs : Fs) :
    ∃ D2, (addDir d fs).dirs = fs.dirs ++ D2 ∧
      (addDir d fs).files = fs.files ∧ (addDir d fs).links = fs.links ∧
      ∀ x ∈ D2, x = d := by
  by_cases hd : d ∈ fs.dirs
  · exact ⟨[], by simp [addDir, hd], rfl, rfl,
      fun x hx => absurd hx (List.not_mem_nil x)⟩
  · exact ⟨[d], by simp [addDir, hd], rfl, rfl,
      fun x hx => by simpa using hx⟩

/-- The inner loop of a real (non-dry) `create_symlinks` run leaves
directories and regular files untouched, only appends symlinks, and
records only target paths that did not already exist. -/
lemma linkFiles_real_spec (fp : Path) (pfx subdir : String) :
    ∀ (entries : List String) (fs : Fs) (created : List Path),
      (linkFiles fp pfx subdir false entries fs created).1.dirs = fs.dirs ∧
      (linkFiles fp pfx subdir false entries fs created).1.files = fs.files ∧
      (∃ L2, (linkFiles fp pfx subdir false entries fs created).1.links =
        fs.links ++ L2) ∧
      (∀ p ∈ (linkFiles fp pfx subdir false entries fs created).2,
        p ∈ created ∨ fsExists fs p = false) := by
  intro entries
  induction entries with
  | nil =>
    intro fs created
    exact ⟨rfl, rfl, ⟨[], (List.append_nil _).symm⟩, fun p hp => Or.inl hp⟩
  | cons fname rest ih =>
    intro fs created
    cases hE : fsExists fs [pfx, subdir, fname] with
    | true =>
      have hred : linkFiles fp pfx subdir false (fname :: rest) fs created =
          linkFiles fp pfx subdir false rest fs created := by
        simp [linkFiles, hE]
      rw [hred]
      exact ih fs created
    | false =>
      have hred : linkFiles fp pfx subdir false (fname :: rest) fs created =
          linkFiles fp pfx subdir false rest
            ⟨fs.dirs, fs.files,
              fs.links ++ [([pfx, subdir, fname], fp ++ [subdir, fname])]⟩
            (created ++ [[pfx, subdir, fname]]) := by
        simp [linkFiles, hE]
      rw [hred]
      obtain ⟨h1, h2, ⟨L2, h3⟩, h4⟩ :=
        ih ⟨fs.dirs, fs.files,
            fs.links ++ [([pfx, subdir, fname], fp ++ [subdir, fname])]⟩
          (created ++ [[pfx, subdir, fname]])
      refine ⟨h1, h2,
        ⟨[([pfx, subdir, fname], fp ++ [subdir, fname])] ++ L2,
          by rw [h3, List.append_assoc]⟩, ?_⟩
      intro p hp
      rcases h4 p hp with hmem | hfalse
      · rcases List.mem_append.1 hmem with h | h
        · exact Or.inl h
        · have hp2 : p = [pfx, subdir, fname] := by simpa using h
          right
          rw [hp2]
          exact hE
      · right
        exact fsExists_false_extension
          ⟨fs.dirs, fs.files,
            fs.links ++ [([pfx, subdir, fname], fp ++ [subdir, fname])]⟩
          fs [] [([pfx, subdir, fname], fp ++ [subdir, fname])] p
          (List.append_nil _).symm rfl rfl hfalse

/-- The subdir loop of a real `create_symlinks` run: files untouched,
directories and symlinks only appended, recorded target paths did not
previously exist. -/
lemma linkDirLoop_real_spec (fp : Path) (pfx : String)
    (content : List (String × List String)) :
    ∀ (sds : List String) (fs : Fs) (created : List Path),
      (∃ D2, (linkDirLoop fp pfx content false sds fs created).1.dirs =
        fs.dirs ++ D2) ∧
      (linkDirLoop fp pfx content false sds fs created).1.files = fs.files ∧
      (∃ L2, (linkDirLoop fp pfx content false sds fs created).1.links =
        fs.links ++ L2) ∧
      (∀ p ∈ (linkDirLoop fp pfx content false sds fs created).2,
        p ∈ created ∨ fsExists fs p = false) := by
  intro sds
  induction sds with
  | nil =>
    intro fs created
    exact ⟨⟨[], (List.append_nil _).symm⟩, rfl,
      ⟨[], (List.append_nil _).symm⟩, fun p hp => Or.inl hp⟩
  | cons subdir rest ih =>
    intro fs created
    cases hc : lookup? subdir content with
    | none =>
      have hred : linkDirLoop fp pfx content false (subdir :: rest) fs created =
          linkDirLoop fp pfx content false rest fs created := by
        simp [linkDirLoop, hc]
      rw [hred]
      exact ih fs created
    | some entries =>
      have hred : linkDirLoop fp pfx content false (subdir :: rest) fs created =
          linkDirLoop fp pfx content false rest
            (linkFiles fp pfx subdir false entries
              (addDir [pfx, subdir] fs) created).1
            (linkFiles fp pfx subdir false entries
              (addDir [pfx, subdir] fs) created).2 := by
        simp [linkDirLoop, hc]
      rw [hred]
      obtain ⟨f1, f2, ⟨L2, f3⟩, f4⟩ :=
        linkFiles_real_spec fp pfx subdir entries (addDir [pfx, subdir] fs)
          created
      obtain ⟨D0, hD0, hF0, hL0, _⟩ := addDir_dirs [pfx, subdir] fs
      obtain ⟨⟨D3, g1⟩, g2, ⟨L3, g3⟩, g4⟩ :=
        ih (linkFiles fp pfx subdir false entries
            (addDir [pfx, subdir] fs) created).1
          (linkFiles fp pfx subdir false entries
            (addDir [pfx, subdir] fs) created).2
      refine ⟨⟨D0 ++ D3, ?_⟩, ?_, ⟨L2 ++ L3, ?_⟩, ?_⟩
      · rw [g1, f1, hD0, List.append_assoc]
      · rw [g2, f2, hF0]
      · rw [g3, f3, hL0, List.append_assoc]
      · intro p hp
        rcases g4 p hp with hmem | hfalse
        · rcases f4 p hmem with hmem2 | hfalse2
          · exact Or.inl hmem2
          · exact Or.inr (fsExists_false_extension _ fs D0 [] p
              (by rw [hD0])
              (by rw [hF0])
              (by rw [hL0]; exact (List.append_nil _).symm) hfalse2)
        · exact Or.inr (fsExists_false_extension _ fs D0 L2 p
            (by rw [f1, hD0]) (by rw [f2, hF0]) (by rw [f3, hL0]) hfalse)

/-- C6: a real `create_symlinks` run never errors, never touches
regular files, only adds directories and symlinks, records only target
paths that did not already exist (existing targets are skipped
silently), and leaves every pre-existing symlink pointing where it
pointed before. -/
theorem C6_collision_skip (formula_name version cellar pfx : String)
    (content : List (String × List String)) (fs : Fs) :
    (create_symlinks formula_name version cellar pfx content false fs).1.files =
      fs.files ∧
    (∃ D2, (create_symlinks formula_name version cellar pfx content false
      fs).1.dirs = fs.dirs ++ D2) ∧
    (∃ L2, (create_symlinks formula_name version cellar pfx content false
      fs).1.links = fs.links ++ L2) ∧
    (∀ p ∈ (create_symlinks formula_name version cellar pfx content false
      fs).2, fsExists fs p = false) ∧
    (∀ p t, plookup? p fs.links = some t →
      plookup? p (create_symlinks formula_name version cellar pfx content
        false fs).1.links = some t) := by
  obtain ⟨⟨D2, h1⟩, h2, ⟨L2, h3⟩, h4⟩ :=
    linkDirLoop_real_spec [cellar, formula_name, version] pfx content
      linkSubdirs fs []
  refine ⟨h2, ⟨D2, h1⟩, ⟨L2, h3⟩, ?_, ?_⟩
  · intro p hp
    rcases h4 p hp with hmem | hfalse
    · cases hmem
    · exact hfalse
  · intro p t hpt
    show plookup? p (linkDirLoop [cellar, formula_name, version] pfx content
      false linkSubdirs fs []).1.links = some t
    rw [h3]
    exact plookup?_append_left L2 hpt

def c6fs : Fs :=
  ⟨[["pfx", "bin"]], [],
    [(["pfx", "bin", "tool"], ["cellar", "x", "1.0", "bin", "tool"])]⟩

/-- C6, instantiated (scenario S6): after `x` provided `bin/tool`,
installing `y` (also shipping `bin/tool`) leaves the link at
`<prefix>/bin/tool` pointing at `x`'s copy. -/
theorem C6_witness :
    plookup? ["pfx", "bin", "tool"]
      (create_symlinks "y" "2.0" "cellar" "pfx" [("bin", ["tool"])] false
        c6fs).1.links =
      some ["cellar", "x", "1.0", "bin", "tool"] :=
  (C6_collision_skip "y" "2.0" "cellar" "pfx" [("bin", ["tool"])]
      c6fs).2.2.2.2
    ["pfx", "bin", "tool"] ["cellar", "x", "1.0", "bin", "tool"] (by rfl)

lemma linkFiles_dry_fs (fp : Path) (pfx subdir : String) :
    ∀ (entries : List String) (fs : Fs) (created : List Path),
      (linkFiles fp pfx subdir true entries fs created).1 = fs := by
  intro entries
  induction entries with
  | nil => intro fs created; rfl
  | cons fname rest ih =>
    intro fs created
    cases hE : fsExists fs [pfx, subdir, fname] with
    | true =>
      have hred : linkFiles fp pfx subdir true (fname :: rest) fs created =
          linkFiles fp pfx subdir true rest fs created := by
        simp [linkFiles, hE]
      rw [hred]
      exact ih fs created
    | false =>
      have hred : linkFiles fp pfx subdir true (fname :: rest) fs created =
          linkFiles fp pfx subdir true rest fs
            (created ++ [[pfx, subdir, fname]]) := by
        simp [linkFiles, hE]
      rw [hred]
      exact ih fs _

lemma linkDirLoop_dry_fs (fp : Path) (pfx : String)
    (content : List (String × List String)) :
    ∀ (sds : List String) (fs : Fs) (created : List Path),
      (linkDirLoop fp pfx content true sds fs created).1 = fs := by
  intro sds
  induction sds with
  | nil => intro fs created; rfl
  | cons subdir rest ih =>
    intro fs created
    cases hc : lookup? subdir content with
    | none =>
      have hred : linkDirLoop fp pfx content true (subdir :: rest) fs created =
          linkDirLoop fp pfx content true rest fs created := by
        simp [linkDirLoop, hc]
      rw [hred]
      exact ih fs created
    | some entries =>
      have hred : linkDirLoop fp pfx content true (subdir :: rest) fs created =
          linkDirLoop fp pfx content true rest
            (linkFiles fp pfx subdir true entries fs created).1
            (linkFiles fp pfx subdir true entries fs created).2 := by
        simp [linkDirLoop, hc]
      rw [hred, linkFiles_dry_fs]
      exact ih fs _

lemma removeFiles_dry_fs (fp : Path) (pfx subdir : String) :
    ∀ (entries : List String) (fs : Fs) (removed : List Path),
      (removeFiles fp pfx subdir true entries fs removed).1 = fs := by
  intro entries
  induction entries with
  | nil => intro fs removed; rfl
  | cons fname rest ih =>
    intro fs removed
    cases hE : fsExists fs [pfx, subdir, fname] with
    | false =>
      have hred : removeFiles fp pfx subdir true (fname :: rest) fs removed =
          removeFiles fp pfx subdir true rest fs removed := by
        simp [removeFiles, hE]
      rw [hred]
      exact ih fs removed
    | true =>
      cases hlk : plookup? [pfx, subdir, fname] fs.links with
      | none =>
        have hred : removeFiles fp pfx subdir true (fname :: rest) fs removed =
            removeFiles fp pfx subdir true rest fs removed := by
          simp [removeFiles, hE, hlk]
        rw [hred]
        exact ih fs removed
      | some lt =>
        cases hP : fp.isPrefixOf lt with
        | false =>
          have hred : removeFiles fp pfx subdir true (fname :: rest) fs
              removed = removeFiles fp pfx subdir true rest fs removed := by
            simp [removeFiles, hE, hlk, hP]
          rw [hred]
          exact ih fs removed
        | true =>
          have hred : removeFiles fp pfx subdir true (fname :: rest) fs
              removed = removeFiles fp pfx subdir true rest fs
                (removed ++ [[pfx, subdir, fname]]) := by
            simp [removeFiles, hE, hlk, hP]
          rw [hred]
          exact ih fs _

lemma removeDirLoop_dry_fs (fp : Path) (pfx : String)
    (content : List (String × List String)) :
    ∀ (sds : List String) (fs : Fs) (removed : List Path),
      (removeDirLoop fp pfx content true sds fs removed).1 = fs := by
  intro sds
  induction sds with
  | nil => intro fs removed; rfl
  | cons subdir rest ih =>
    intro fs removed
    cases hc : lookup? subdir content with
    | none =>
      have hred : removeDirLoop fp pfx content true (subdir :: rest) fs
          removed = removeDirLoop fp pfx content true rest fs removed := by
        simp [removeDirLoop, hc]
      rw [hred]
      exact ih fs removed
    | some entries =>
      have hred : removeDirLoop fp pfx content true (subdir :: rest) fs
          removed = removeDirLoop fp pfx content true rest
            (removeFiles fp pfx subdir true entries fs removed).1
            (removeFiles fp pfx subdir true entries fs removed).2 := by
        simp [removeDirLoop, hc]
      rw [hred, removeFiles_dry_fs]
      exact ih fs _

/-- Existence in an extended filesystem agrees with existence in the
base one at every path the extension does not mention. -/
lemma fsExists_extension_eq (fsR fs0 : Fs) (D : List Path)
    (L : List (Path × Path)) (p : Path)
    (hd : fsR.dirs = fs0.dirs ++ D) (hf : fsR.files = fs0.files)
    (hl : fsR.links = fs0.links ++ L)
    (hD : p ∉ D) (hL : p ∉ pkeys L) :
    fsExists fsR p = fsExists fs0 p := by
  apply decide_eq_decide.2
  rw [hd, hf, hl, pkeys_append]
  constructor
  · rintro (h | h | h)
    · rcases List.mem_append.1 h with h1 | h1
      · exact Or.inl h1
      · exact absurd h1 hD
    · exact Or.inr (Or.inl h)
    · rcases List.mem_append.1 h with h1 | h1
      · exact Or.inr (Or.inr h1)
      · exact absurd h1 hL
  · rintro (h | h | h)
    · exact Or.inl (List.mem_append_left _ h)
    · exact Or.inr (Or.inl h)
    · exact Or.inr (Or.inr (List.mem_append_left _ h))

/-- A dry inner run and a real inner run over the same listing record
the same target paths, provided the real filesystem extends the dry one
only by entries the listing's target paths do not mention (duplicate
names excluded). -/
lemma linkFiles_dry_real (fp : Path) (pfx subdir : String) :
    ∀ (entries : List String), entries.Nodup →
    ∀ (fsR fs0 : Fs) (D : List Path) (L : List (Path × Path))
      (created : List Path),
      fsR.dirs = fs0.dirs ++ D → fsR.files = fs0.files →
      fsR.links = fs0.links ++ L →
      (∀ f ∈ entries, ([pfx, subdir, f] : Path) ∉ D) →
      (∀ f ∈ entries, ([pfx, subdir, f] : Path) ∉ pkeys L) →
      (linkFiles fp pfx subdir false entries fsR created).2 =
        (linkFiles fp pfx subdir true entries fs0 created).2 ∧
      ∃ L2,
        (linkFiles fp pfx subdir false entries fsR created).1 =
          ⟨fs0.dirs ++ D, fs0.files, fs0.links ++ (L ++ L2)⟩ ∧
        ∀ q ∈ pkeys L2, ∃ f ∈ entries, q = [pfx, subdir, f] := by
  intro entries
  induction entries with
  | nil =>
    intro _ fsR fs0 D L created hd hf hl _ _
    refine ⟨rfl, [], ?_, fun q hq => absurd hq (List.not_mem_nil q)⟩
    show fsR = _
    rw [List.append_nil]
    rw [← hd, ← hf, ← hl]
  | cons fname rest ih =>
    intro hnd fsR fs0 D L created hd hf hl hD hL
    have hndr : rest.Nodup := (List.nodup_cons.1 hnd).2
    have hfn : fname ∉ rest := (List.nodup_cons.1 hnd).1
    have hEq : fsExists fsR [pfx, subdir, fname] =
        fsExists fs0 [pfx, subdir, fname] :=
      fsExists_extension_eq fsR fs0 D L _ hd hf hl
        (hD fname (List.mem_cons_self _ _)) (hL fname (List.mem_cons_self _ _))
    cases hE : fsExists fs0 [pfx, subdir, fname] with
    | true =>
      have hRE : fsExists fsR [pfx, subdir, fname] = true := hEq.trans hE
      have hredR : linkFiles fp pfx subdir false (fname :: rest) fsR created =
          linkFiles fp pfx subdir false rest fsR created := by
        simp [linkFiles, hRE]
      have hredD : linkFiles fp pfx subdir true (fname :: rest) fs0 created =
          linkFiles fp pfx subdir true rest fs0 created := by
        simp [linkFiles, hE]
      rw [hredR, hredD]
      obtain ⟨heq2, L2, hfs2, hprop⟩ := ih hndr fsR fs0 D L created hd hf hl
        (fun f hfm => hD f (List.mem_cons_of_mem _ hfm))
        (fun f hfm => hL f (List.mem_cons_of_mem _ hfm))
      refine ⟨heq2, L2, hfs2, fun q hq => ?_⟩
      obtain ⟨f, hfm, hqe⟩ := hprop q hq
      exact ⟨f, List.mem_cons_of_mem _ hfm, hqe⟩
    | false =>
      have hRE : fsExists fsR [pfx, subdir, fname] = false := hEq.trans hE
      have hredR : linkFiles fp pfx subdir false (fname :: rest) fsR created =
          linkFiles fp pfx subdir false rest
            ⟨fsR.dirs, fsR.files,
              fsR.links ++ [([pfx, subdir, fname], fp ++ [subdir, fname])]⟩
            (created ++ [[pfx, subdir, fname]]) := by
        simp [linkFiles, hRE]
      have hredD : linkFiles fp pfx subdir true (fname :: rest) fs0 created =
          linkFiles fp pfx subdir true rest fs0
            (created ++ [[pfx, subdir, fname]]) := by
        simp [linkFiles, hE]
      rw [hredR, hredD]
      have hstep := ih hndr
        ⟨fsR.dirs, fsR.files,
          fsR.links ++ [([pfx, subdir, fname], fp ++ [subdir, fname])]⟩
        fs0 D (L ++ [([pfx, subdir, fname], fp ++ [subdir, fname])])
        (created ++ [[pfx, subdir, fname]])
        (by rw [hd]) (by rw [hf])
        (by rw [hl, List.append_assoc])
        (fun f hfm => hD f (List.mem_cons_of_mem _ hfm))
        (fun f hfm => by
          rw [pkeys_append]
          intro hmem
          rcases List.mem_append.1 hmem with h1 | h1
          · exact hL f (List.mem_cons_of_mem _ hfm) h1
          · have hp2 : ([pfx, subdir, f] : Path) = [pfx, subdir, fname] := by
              simpa [pkeys] using h1
            have : f = fname := by simpa using hp2
            rw [this] at hfm
            exact hfn hfm)
      obtain ⟨heq2, L2, hfs2, hprop⟩ := hstep
      refine ⟨heq2,
        [([pfx, subdir, fname], fp ++ [subdir, fname])] ++ L2, ?_, ?_⟩
      · rw [hfs2, ← List.append_assoc L]
      · intro q hq
        rw [pkeys_append] at hq
        rcases List.mem_append.1 hq with h1 | h1
        · have : q = [pfx, subdir, fname] := by simpa [pkeys] using h1
          exact ⟨fname, List.mem_cons_self _ _, this⟩
        · obtain ⟨f, hfm, hqe⟩ := hprop q h1
          exact ⟨f, List.mem_cons_of_mem _ hfm, hqe⟩

/-- A dry subdir loop and a real subdir loop of `create_symlinks`
record the same target paths (per-directory listings being
duplicate-free, as `read_dir` guarantees). -/
lemma linkDirLoop_dry_real (fp : Path) (pfx : String)
    (content : List (String × List String))
    (hcont : ∀ e ∈ content, e.2.Nodup) :
    ∀ (sds : List String), sds.Nodup →
    ∀ (fsR fs0 : Fs) (D : List Path) (L : List (Path × Path))
      (created : List Path),
      fsR.dirs = fs0.dirs ++ D → fsR.files = fs0.files →
      fsR.links = fs0.links ++ L →
      (∀ d ∈ D, d.length = 2) →
      (∀ q ∈ pkeys L, ∃ s f, q = [pfx, s, f] ∧ s ∉ sds) →
      (linkDirLoop fp pfx content false sds fsR created).2 =
        (linkDirLoop fp pfx content true sds fs0 created).2 ∧
      ∃ D2 L2,
        (linkDirLoop fp pfx content false sds fsR created).1 =
          ⟨fs0.dirs ++ (D ++ D2), fs0.files, fs0.links ++ (L ++ L2)⟩ ∧
        (∀ d ∈ D2, d.length = 2) ∧
        (∀ q ∈ pkeys L2, ∃ s f, q = [pfx, s, f] ∧ s ∈ sds) := by
  intro sds
  induction sds with
  | nil =>
    intro _ fsR fs0 D L created hd hf hl _ _
    refine ⟨rfl, [], [], ?_, fun d hd2 => absurd hd2 (List.not_mem_nil d),
      fun q hq => absurd hq (List.not_mem_nil q)⟩
    show fsR = _
    rw [List.append_nil, List.append_nil, ← hd, ← hf, ← hl]
  | cons subdir rest ih =>
    intro hnd fsR fs0 D L created hd hf hl hD hL
    have hndr := (List.nodup_cons.1 hnd).2
    have hsub : subdir ∉ rest := (List.nodup_cons.1 hnd).1
    cases hc : lookup? subdir content with
    | none =>
      have hredR : linkDirLoop fp pfx content false (subdir :: rest) fsR
          created = linkDirLoop fp pfx content false rest fsR created := by
        simp [linkDirLoop, hc]
      have hredD : linkDirLoop fp pfx content true (subdir :: rest) fs0
          created = linkDirLoop fp pfx content true rest fs0 created := by
        simp [linkDirLoop, hc]
      rw [hredR, hredD]
      obtain ⟨heq, D2, L2, hfs, hD2, hL2⟩ := ih hndr fsR fs0 D L created hd hf
        hl hD
        (fun q hq => by
          obtain ⟨s, f, hqe, hsn⟩ := hL q hq
          exact ⟨s, f, hqe, fun hm => hsn (List.mem_cons_of_mem _ hm)⟩)
      refine ⟨heq, D2, L2, hfs, hD2, fun q hq => ?_⟩
      obtain ⟨s, f, hqe, hsm⟩ := hL2 q hq
      exact ⟨s, f, hqe, List.mem_cons_of_mem _ hsm⟩
    | some entries =>
      obtain ⟨D0, hD0, hF0, hL0, hD0mem⟩ := addDir_dirs [pfx, subdir] fsR
      have hndE : entries.Nodup := hcont (subdir, entries) (mem_of_lookup? hc)
      obtain ⟨heqI, L2i, hfsI, hpropI⟩ := linkFiles_dry_real fp pfx subdir
        entries hndE (addDir [pfx, subdir] fsR) fs0 (D ++ D0) L created
        (by rw [hD0, hd, List.append_assoc])
        (by rw [hF0, hf])
        (by rw [hL0, hl])
        (fun f hfm => by
          intro hmem
          rcases List.mem_append.1 hmem with h1 | h1
          · have h2 := hD _ h1
            simp at h2
          · have h2 := hD0mem _ h1
            simp at h2)
        (fun f hfm => by
          intro hmem
          obtain ⟨s, f0, hqe, hsn⟩ := hL _ hmem
          have h2 : subdir = s ∧ f = f0 := by simpa using hqe
          rw [← h2.1] at hsn
          exact hsn (List.mem_cons_self _ _))
      have hredR : linkDirLoop fp pfx content false (subdir :: rest) fsR
          created = linkDirLoop fp pfx content false rest
            (linkFiles fp pfx subdir false entries
              (addDir [pfx, subdir] fsR) created).1
            (linkFiles fp pfx subdir false entries
              (addDir [pfx, subdir] fsR) created).2 := by
        simp [linkDirLoop, hc]
      have hredD : linkDirLoop fp pfx content true (subdir :: rest) fs0
          created = linkDirLoop fp pfx content true rest fs0
            (linkFiles fp pfx subdir true entries fs0 created).2 := by
        simp [linkDirLoop, hc, linkFiles_dry_fs]
      rw [hredR, hredD, heqI]
      obtain ⟨heq, D2, L2, hfs, hD2, hL2⟩ := ih hndr
        (linkFiles fp pfx subdir false entries
          (addDir [pfx, subdir] fsR) created).1
        fs0 (D ++ D0) (L ++ L2i)
        (linkFiles fp pfx subdir true entries fs0 created).2
        (by rw [hfsI]) (by rw [hfsI]) (by rw [hfsI])
        (fun d hdm => by
          rcases List.mem_append.1 hdm with h1 | h1
          · exact hD d h1
          · rw [hD0mem d h1]
            rfl)
        (fun q hq => by
          rw [pkeys_append] at hq
          rcases List.mem_append.1 hq with h1 | h1
          · obtain ⟨s, f, hqe, hsn⟩ := hL q h1
            exact ⟨s, f, hqe, fun hm => hsn (List.mem_cons_of_mem _ hm)⟩
          · obtain ⟨f, hfm, hqe⟩ := hpropI q h1
            exact ⟨subdir, f, hqe, hsub⟩)
      refine ⟨heq, D0 ++ D2, L2i ++ L2, ?_, ?_, ?_⟩
      · rw [hfs, List.append_assoc D D0 D2, List.append_assoc L L2i L2]
      · intro d hdm
        rcases List.mem_append.1 hdm with h1 | h1
        · rw [hD0mem d h1]
          rfl
        · exact hD2 d h1
      · intro q hq
        rw [pkeys_append] at hq
        rcases List.mem_append.1 hq with h1 | h1
        · obtain ⟨f, hfm, hqe⟩ := hpropI q h1
          exact ⟨subdir, f, hqe, List.mem_cons_self _ _⟩
        · obtain ⟨s, f, hqe, hsm⟩ := hL2 q h1
          exact ⟨s, f, hqe, List.mem_cons_of_mem _ hsm⟩

/-- The link table with every entry at a path of `R` removed. -/
def premoveList (R : List Path) (links : List (Path × Path)) :
    List (Path × Path) :=
  links.filter (fun e => decide ¬ e.1 ∈ R)

lemma premoveList_nil (l : List (Path × Path)) : premoveList [] l = l :=
  List.filter_eq_self.2 (fun a _ => by simp)

lemma pkeys_cons (e : Path × Path) (l : List (Path × Path)) :
    pkeys (e :: l) = e.1 :: pkeys l := rfl

lemma removeLink_premoveList (p : Path) (R : List Path)
    (l : List (Path × Path)) :
    removeLink p (premoveList R l) = premoveList (R ++ [p]) l := by
  induction l with
  | nil => rfl
  | cons e rest ih =>
    by_cases h1 : e.1 ∈ R
    · have hL : premoveList R (e :: rest) = premoveList R rest := by
        simp only [premoveList, List.filter_cons]
        rw [if_neg (by simp [h1])]
      have hR : premoveList (R ++ [p]) (e :: rest) =
          premoveList (R ++ [p]) rest := by
        simp only [premoveList, List.filter_cons]
        rw [if_neg (by simp [List.mem_append, h1])]
      rw [hL, hR, ih]
    · by_cases h3 : e.1 = p
      · have hL : premoveList R (e :: rest) = e :: premoveList R rest := by
          simp only [premoveList, List.filter_cons]
          rw [if_pos (by simp [h1])]
        have hR : premoveList (R ++ [p]) (e :: rest) =
            premoveList (R ++ [p]) rest := by
          simp only [premoveList, List.filter_cons]
          rw [if_neg (by simp [List.mem_append, h3])]
        have hM : removeLink p (e :: premoveList R rest) =
            removeLink p (premoveList R rest) := by
          simp only [removeLink, List.filter_cons]
          rw [if_neg (by simp [h3])]
        rw [hL, hM, hR, ih]
      · have hL : premoveList R (e :: rest) = e :: premoveList R rest := by
          simp only [premoveList, List.filter_cons]
          rw [if_pos (by simp [h1])]
        have hR : premoveList (R ++ [p]) (e :: rest) =
            e :: premoveList (R ++ [p]) rest := by
          simp only [premoveList, List.filter_cons]
          rw [if_pos (by simp [List.mem_append, h1, h3])]
        have hM : removeLink p (e :: premoveList R rest) =
            e :: removeLink p (premoveList R rest) := by
          simp only [removeLink, List.filter_cons]
          rw [if_pos (by simp [h3])]
        rw [hL, hM, hR, ih]

lemma pkeys_premove_mem {p : Path} (R : List Path) (l : List (Path × Path))
    (hp : p ∉ R) : p ∈ pkeys (premoveList R l) ↔ p ∈ pkeys l := by
  induction l with
  | nil => simp [premoveList, pkeys]
  | cons e rest ih =>
    by_cases h1 : e.1 ∈ R
    · rw [show premoveList R (e :: rest) = premoveList R rest from by
          simp [premoveList, List.filter_cons, h1],
        ih, pkeys_cons]
      constructor
      · exact fun h => List.mem_cons_of_mem _ h
      · intro h
        rcases List.mem_cons.1 h with h2 | h2
        · exact absurd (by rw [h2]; exact h1) hp
        · exact h2
    · rw [show premoveList R (e :: rest) = e :: premoveList R rest from by
          simp [premoveList, List.filter_cons, h1],
        pkeys_cons, pkeys_cons]
      constructor
      · intro h
        rcases List.mem_cons.1 h with h2 | h2
        · exact List.mem_cons.2 (Or.inl h2)
        · exact List.mem_cons.2 (Or.inr (ih.1 h2))
      · intro h
        rcases List.mem_cons.1 h with h2 | h2
        · exact List.mem_cons.2 (Or.inl h2)
        · exact List.mem_cons.2 (Or.inr (ih.2 h2))

lemma plookup?_premove {p : Path} (R : List Path) (l : List (Path × Path))
    (hp : p ∉ R) : plookup? p (premoveList R l) = plookup? p l := by
  induction l with
  | nil => rfl
  | cons e rest ih =>
    obtain ⟨k, v⟩ := e
    by_cases h1 : k ∈ R
    · have hk : ¬ k = p := fun hc => hp (by rw [← hc]; exact h1)
      rw [show premoveList R ((k, v) :: rest) = premoveList R rest from by
          simp [premoveList, List.filter_cons, h1],
        ih,
        show plookup? p ((k, v) :: rest) = plookup? p rest from by
          simp [plookup?, hk]]
    · rw [show premoveList R ((k, v) :: rest) = (k, v) :: premoveList R rest
          from by simp [premoveList, List.filter_cons, h1]]
      by_cases hk : k = p
      · simp [plookup?, hk]
      · simp [plookup?, hk, ih]

lemma fsExists_premove_eq (fsR fs0 : Fs) (R : List Path) (p : Path)
    (hd : fsR.dirs = fs0.dirs) (hf : fsR.files = fs0.files)
    (hl : fsR.links = premoveList R fs0.links) (hp : p ∉ R) :
    fsExists fsR p = fsExists fs0 p := by
  apply decide_eq_decide.2
  rw [hd, hf, hl]
  constructor
  · rintro (h | h | h)
    · exact Or.inl h
    · exact Or.inr (Or.inl h)
    · exact Or.inr (Or.inr ((pkeys_premove_mem R fs0.links hp).1 h))
  · rintro (h | h | h)
    · exact Or.inl h
    · exact Or.inr (Or.inl h)
    · exact Or.inr (Or.inr ((pkeys_premove_mem R fs0.links hp).2 h))

/-- A dry inner run and a real inner run of `remove_symlinks` over the
same listing record the same target paths, provided the real filesystem
is the dry one minus links at paths the listing does not mention. -/
lemma removeFiles_dry_real (fp : Path) (pfx subdir : String) :
    ∀ (entries : List String), entries.Nodup →
    ∀ (fsR fs0 : Fs) (R : List Path) (removed : List Path),
      fsR.dirs = fs0.dirs → fsR.files = fs0.files →
      fsR.links = premoveList R fs0.links →
      (∀ f ∈ entries, ([pfx, subdir, f] : Path) ∉ R) →
      (removeFiles fp pfx subdir false entries fsR removed).2 =
        (removeFiles fp pfx subdir true entries fs0 removed).2 ∧
      ∃ R2,
        (removeFiles fp pfx subdir false entries fsR removed).1 =
          ⟨fs0.dirs, fs0.files, premoveList (R ++ R2) fs0.links⟩ ∧
        ∀ q ∈ R2, ∃ f ∈ entries, q = [pfx, subdir, f] := by
  intro entries
  induction entries with
  | nil =>
    intro _ fsR fs0 R removed hd hf hl _
    refine ⟨rfl, [], ?_, fun q hq => absurd hq (List.not_mem_nil q)⟩
    show fsR = _
    rw [List.append_nil, ← hd, ← hf, ← hl]
  | cons fname rest ih =>
    intro hnd fsR fs0 R removed hd hf hl hR
    have hndr : rest.Nodup := (List.nodup_cons.1 hnd).2
    have hfn : fname ∉ rest := (List.nodup_cons.1 hnd).1
    have hRm : ([pfx, subdir, fname] : Path) ∉ R :=
      hR fname (List.mem_cons_self _ _)
    have hEq : fsExists fsR [pfx, subdir, fname] =
        fsExists fs0 [pfx, subdir, fname] :=
      fsExists_premove_eq fsR fs0 R _ hd hf hl hRm
    have hLk : plookup? [pfx, subdir, fname] fsR.links =
        plookup? [pfx, subdir, fname] fs0.links := by
      rw [hl]
      exact plookup?_premove R fs0.links hRm
    cases hE : fsExists fs0 [pfx, subdir, fname] with
    | false =>
      have hRE : fsExists fsR [pfx, subdir, fname] = false := hEq.trans hE
      have hredR : removeFiles fp pfx subdir false (fname :: rest) fsR
          removed = removeFiles fp pfx subdir false rest fsR removed := by
        simp [removeFiles, hRE]
      have hredD : removeFiles fp pfx subdir true (fname :: rest) fs0
          removed = removeFiles fp pfx subdir true rest fs0 removed := by
        simp [removeFiles, hE]
      rw [hredR, hredD]
      obtain ⟨heq, R2, hfs, hprop⟩ := ih hndr fsR fs0 R removed hd hf hl
        (fun f hfm => hR f (List.mem_cons_of_mem _ hfm))
      refine ⟨heq, R2, hfs, fun q hq => ?_⟩
      obtain ⟨f, hfm, hqe⟩ := hprop q hq
      exact ⟨f, List.mem_cons_of_mem _ hfm, hqe⟩
    | true =>
      have hRE : fsExists fsR [pfx, subdir, fname] = true := hEq.trans hE
      cases hlk : plookup? [pfx, subdir, fname] fs0.links with
      | none =>
        have hLkR : plookup? [pfx, subdir, fname] fsR.links = none :=
          hLk.trans hlk
        have hredR : removeFiles fp pfx subdir false (fname :: rest) fsR
            removed = removeFiles fp pfx subdir false rest fsR removed := by
          simp [removeFiles, hRE, hLkR]
        have hredD : removeFiles fp pfx subdir true (fname :: rest) fs0
            removed = removeFiles fp pfx subdir true rest fs0 removed := by
          simp [removeFiles, hE, hlk]
        rw [hredR, hredD]
        obtain ⟨heq, R2, hfs, hprop⟩ := ih hndr fsR fs0 R removed hd hf hl
          (fun f hfm => hR f (List.mem_cons_of_mem _ hfm))
        refine ⟨heq, R2, hfs, fun q hq => ?_⟩
        obtain ⟨f, hfm, hqe⟩ := hprop q hq
        exact ⟨f, List.mem_cons_of_mem _ hfm, hqe⟩
      | some lt =>
        have hLkR : plookup? [pfx, subdir, fname] fsR.links = some lt :=
          hLk.trans hlk
        cases hP : fp.isPrefixOf lt with
        | false =>
          have hredR : removeFiles fp pfx subdir false (fname :: rest) fsR
              removed = removeFiles fp pfx subdir false rest fsR removed := by
            simp [removeFiles, hRE, hLkR, hP]
          have hredD : removeFiles fp pfx subdir true (fname :: rest) fs0
              removed = removeFiles fp pfx subdir true rest fs0 removed := by
            simp [removeFiles, hE, hlk, hP]
          rw [hredR, hredD]
          obtain ⟨heq, R2, hfs, hprop⟩ := ih hndr fsR fs0 R removed hd hf hl
            (fun f hfm => hR f (List.mem_cons_of_mem _ hfm))
          refine ⟨heq, R2, hfs, fun q hq => ?_⟩
          obtain ⟨f, hfm, hqe⟩ := hprop q hq
          exact ⟨f, List.mem_cons_of_mem _ hfm, hqe⟩
        | true =>
          have hredR : removeFiles fp pfx subdir false (fname :: rest) fsR
              removed = removeFiles fp pfx subdir false rest
                ⟨fsR.dirs, fsR.files,
                  removeLink [pfx, subdir, fname] fsR.links⟩
                (removed ++ [[pfx, subdir, fname]]) := by
            simp [removeFiles, hRE, hLkR, hP]
          have hredD : removeFiles fp pfx subdir true (fname :: rest) fs0
              removed = removeFiles fp pfx subdir true rest fs0
                (removed ++ [[pfx, subdir, fname]]) := by
            simp [removeFiles, hE, hlk, hP]
          rw [hredR, hredD]
          obtain ⟨heq, R2, hfs, hprop⟩ := ih hndr
            ⟨fsR.dirs, fsR.files,
              removeLink [pfx, subdir, fname] fsR.links⟩
            fs0 (R ++ [[pfx, subdir, fname]])
            (removed ++ [[pfx, subdir, fname]])
            (by rw [hd]) (by rw [hf])
            (by
              show removeLink [pfx, subdir, fname] fsR.links = _
              rw [hl, removeLink_premoveList])
            (fun f hfm => by
              intro hmem
              rcases List.mem_append.1 hmem with h1 | h1
              · exact hR f (List.mem_cons_of_mem _ hfm) h1
              · have hp2 : ([pfx, subdir, f] : Path) =
                    [pfx, subdir, fname] := by simpa using h1
                have : f = fname := by simpa using hp2
                rw [this] at hfm
                exact hfn hfm)
          refine ⟨heq, [[pfx, subdir, fname]] ++ R2, ?_, ?_⟩
          · rw [hfs, ← List.append_assoc R]
          · intro q hq
            rcases List.mem_append.1 hq with h1 | h1
            · have : q = [pfx, subdir, fname] := by simpa using h1
              exact ⟨fname, List.mem_cons_self _ _, this⟩
            · obtain ⟨f, hfm, hqe⟩ := hprop q h1
              exact ⟨f, List.mem_cons_of_mem _ hfm, hqe⟩

/-- A dry subdir loop and a real subdir loop of `remove_symlinks`
record the same target paths. -/
lemma removeDirLoop_dry_real (fp : Path) (pfx : String)
    (content : List (String × List String))
    (hcont : ∀ e ∈ content, e.2.Nodup) :
    ∀ (sds : List String), sds.Nodup →
    ∀ (fsR fs0 : Fs) (R : List Path) (removed : List Path),
      fsR.dirs = fs0.dirs → fsR.files = fs0.files →
      fsR.links = premoveList R fs0.links →
      (∀ q ∈ R, ∃ s f, q = [pfx, s, f] ∧ s ∉ sds) →
      (removeDirLoop fp pfx content false sds fsR removed).2 =
        (removeDirLoop fp pfx content true sds fs0 removed).2 ∧
      ∃ R2,
        (removeDirLoop fp pfx content false sds fsR removed).1 =
          ⟨fs0.dirs, fs0.files, premoveList (R ++ R2) fs0.links⟩ ∧
        ∀ q ∈ R2, ∃ s f, q = [pfx, s, f] ∧ s ∈ sds := by
  intro sds
  induction sds with
  | nil =>
    intro _ fsR fs0 R removed hd hf hl _
    refine ⟨rfl, [], ?_, fun q hq => absurd hq (List.not_mem_nil q)⟩
    show fsR = _
    rw [List.append_nil, ← hd, ← hf, ← hl]
  | cons subdir rest ih =>
    intro hnd fsR fs0 R removed hd hf hl hR
    have hndr := (List.nodup_cons.1 hnd).2
    have hsub : subdir ∉ rest := (List.nodup_cons.1 hnd).1
    cases hc : lookup? subdir content with
    | none =>
      have hredR : removeDirLoop fp pfx content false (subdir :: rest) fsR
          removed = removeDirLoop fp pfx content false rest fsR removed := by
        simp [removeDirLoop, hc]
      have hredD : removeDirLoop fp pfx content true (subdir :: rest) fs0
          removed = removeDirLoop fp pfx content true rest fs0 removed := by
        simp [removeDirLoop, hc]
      rw [hredR, hredD]
      obtain ⟨heq, R2, hfs, hprop⟩ := ih hndr fsR fs0 R removed hd hf hl
        (fun q hq => by
          obtain ⟨s, f, hqe, hsn⟩ := hR q hq
          exact ⟨s, f, hqe, fun hm => hsn (List.mem_cons_of_mem _ hm)⟩)
      refine ⟨heq, R2, hfs, fun q hq => ?_⟩
      obtain ⟨s, f, hqe, hsm⟩ := hprop q hq
      exact ⟨s, f, hqe, List.mem_cons_of_mem _ hsm⟩
    | some entries =>
      have hndE : entries.Nodup := hcont (subdir, entries) (mem_of_lookup? hc)
      obtain ⟨heqI, R2i, hfsI, hpropI⟩ := removeFiles_dry_real fp pfx subdir
        entries hndE fsR fs0 R removed hd hf hl
        (fun f hfm => by
          intro hmem
          obtain ⟨s, f0, hqe, hsn⟩ := hR _ hmem
          have h2 : subdir = s ∧ f = f0 := by simpa using hqe
          rw [← h2.1] at hsn
          exact hsn (List.mem_cons_self _ _))
      have hredR : removeDirLoop fp pfx content false (subdir :: rest) fsR
          removed = removeDirLoop fp pfx content false rest
            (removeFiles fp pfx subdir false entries fsR removed).1
            (removeFiles fp pfx subdir false entries fsR removed).2 := by
        simp [removeDirLoop, hc]
      have hredD : removeDirLoop fp pfx content true (subdir :: rest) fs0
          removed = removeDirLoop fp pfx content true rest fs0
            (removeFiles fp pfx subdir true entries fs0 removed).2 := by
        simp [removeDirLoop, hc, removeFiles_dry_fs]
      rw [hredR, hredD, heqI]
      obtain ⟨heq, R2, hfs, hprop⟩ := ih hndr
        (removeFiles fp pfx subdir false entries fsR removed).1
        fs0 (R ++ R2i)
        (removeFiles fp pfx subdir true entries fs0 removed).2
        (by rw [hfsI]) (by rw [hfsI]) (by rw [hfsI])
        (fun q hq => by
          rcases List.mem_append.1 hq with h1 | h1
          · obtain ⟨s, f, hqe, hsn⟩ := hR q h1
            exact ⟨s, f, hqe, fun hm => hsn (List.mem_cons_of_mem _ hm)⟩
          · obtain ⟨f, hfm, hqe⟩ := hpropI q h1
            exact ⟨subdir, f, hqe, hsub⟩)
      refine ⟨heq, R2i ++ R2, ?_, ?_⟩
      · rw [hfs, List.append_assoc R R2i R2]
      · intro q hq
        rcases List.mem_append.1 hq with h1 | h1
        · obtain ⟨f, hfm, hqe⟩ := hpropI q h1
          exact ⟨subdir, f, hqe, List.mem_cons_self _ _⟩
        · obtain ⟨s, f, hqe, hsm⟩ := hprop q h1
          exact ⟨s, f, hqe, List.mem_cons_of_mem _ hsm⟩

/-- C10: with `dry_run = true` neither `create_symlinks` nor
`remove_symlinks` changes the filesystem, and each returns exactly the
list of link paths its real run would create (resp. remove); the
per-directory listings are duplicate-free, as `read_dir` guarantees. -/
theorem C10_dry_run_pure (formula_name version cellar pfx : String)
    (content : List (String × List String)) (fs : Fs)
    (hcont : ∀ e ∈ content, e.2.Nodup) :
    (create_symlinks formula_name version cellar pfx content true fs).1 =
      fs ∧
    (create_symlinks formula_name version cellar pfx content false fs).2 =
      (create_symlinks formula_name version cellar pfx content true fs).2 ∧
    (remove_symlinks formula_name version cellar pfx content true fs).1 =
      fs ∧
    (remove_symlinks formula_name version cellar pfx content false fs).2 =
      (remove_symlinks formula_name version cellar pfx content true fs).2 := by
  refine ⟨linkDirLoop_dry_fs _ _ _ _ fs [], ?_,
    removeDirLoop_dry_fs _ _ _ _ fs [], ?_⟩
  · exact (linkDirLoop_dry_real [cellar, formula_name, version] pfx content
      hcont linkSubdirs (by decide) fs fs [] [] []
      (List.append_nil _).symm rfl (List.append_nil _).symm
      (fun d hd => absurd hd (List.not_mem_nil d))
      (fun q hq => absurd hq (List.not_mem_nil q))).1
  · exact (removeDirLoop_dry_real [cellar, formula_name, version] pfx content
      hcont linkSubdirs (by decide) fs fs [] []
      rfl rfl (premoveList_nil _).symm
      (fun q hq => absurd hq (List.not_mem_nil q))).1

def c10fs : Fs :=
  ⟨[["pfx", "bin"]], [["pfx", "bin", "tool1"]],
    [(["pfx", "lib", "libz"], ["cellar", "p", "1.0", "lib", "libz"]),
     (["pfx", "bin", "other"], ["cellar", "q", "2.0", "bin", "other"])]⟩

def c10content : List (String × List String) :=
  [("bin", ["tool1", "tool2"]), ("lib", ["libz"])]

/-- C10, instantiated: on a concrete filesystem with one file collision,
one own link and one foreign link, the dry runs leave the filesystem
untouched and return the same lists as the real runs. -/
theorem C10_witness :
    (create_symlinks "p" "1.0" "cellar" "pfx" c10content true c10fs).1 =
      c10fs ∧
    (create_symlinks "p" "1.0" "cellar" "pfx" c10content false c10fs).2 =
      (create_symlinks "p" "1.0" "cellar" "pfx" c10content true c10fs).2 ∧
    (remove_symlinks "p" "1.0" "cellar" "pfx" c10content true c10fs).1 =
      c10fs ∧
    (remove_symlinks "p" "1.0" "cellar" "pfx" c10content false c10fs).2 =
      (remove_symlinks "p" "1.0" "cellar" "pfx" c10content true c10fs).2 :=
  C10_dry_run_pure "p" "1.0" "cellar" "pfx" c10content c10fs (by decide)

end Wax
